import Mathlib

/-!
# squel: column access patterns and redaction of one SQL statement

A shallow embedding of `parser.go`.  The statement tree that the Go code walks by
reflection is the inductive type `Node`; the scope that the walk threads through its
recursive calls is the structure `QueryInfo`; the two Go maps of a scope are association
lists whose newest binding comes first.  Go strings are Lean strings; the comparison `<`
of Go (byte-wise, lexicographic) is `stringLess`, which compares code points: on valid
UTF-8 both orders agree.

The SQL grammar, `Normalize` and `String` of the `sqlparser` package, `sort.Slice`,
`unique.Slice` and `regexp` are libraries outside `parser.go`; their part is either a
parameter (`redactSQLQuery`) or a small model that is named as such.
-/

namespace Squel

/-! ## Data model -/

/-- One reported reference: the struct `ColumnAccess` of `parser.go`. -/
structure ColumnAccess where
  TableName : String
  ColumnName : String
  QueryType : String
deriving DecidableEq, Repr

/-- Key and value type of `aliasColumnToColumnMapping`: the struct `Column`. -/
structure Column where
  table : String
  column : String
deriving DecidableEq, Repr

/-- The scope of one statement or subquery: the struct `QueryInfo`.  A Go map is the list
of its stores, newest first, read with `mapLookup`. -/
structure QueryInfo where
  tables : List String
  aliasToTableMapping : List (String × String)
  aliasColumnToColumnMapping : List (Column × Column)
  columns : List ColumnAccess
deriving DecidableEq, Repr

/-- `NewQueryInfo()`: no tables, two empty maps, no columns. -/
def NewQueryInfo : QueryInfo :=
  { tables := [], aliasToTableMapping := [], aliasColumnToColumnMapping := [], columns := [] }

/-- The read `value, ok := m[k]` of a Go map: the newest store to `k`, if any. -/
def mapLookup {κ ν : Type} [DecidableEq κ] (k : κ) : List (κ × ν) → Option ν
  | [] => none
  | (k', v) :: rest => if k' = k then some v else mapLookup k rest

/-- The store `m[k] = v` of a Go map. -/
def mapStore {κ ν : Type} (k : κ) (v : ν) (m : List (κ × ν)) : List (κ × ν) :=
  (k, v) :: m

/-- `stringInSlice(a, list)`: whether `a` is an element of `list`. -/
def stringInSlice (a : String) : List String → Bool
  | [] => false
  | b :: rest => if b = a then true else stringInSlice a rest

/-- The statement tree as the walk sees it through `reflect`.

* `struct typeName fields`: a struct value of any type other than the four below, with
  the values of its fields in declaration order, pointers already dereferenced
  (`reflect.Indirect`);
* `starExpr t`: a `StarExpr`, `t` its `TableName.Name.CompliantName()`;
* `tableName n q`: a `TableName`, with `Name.CompliantName()` and
  `Qualifier.CompliantName()`;
* `aliasedTable n a`: an `AliasedTableExpr` whose `Expr` is a `TableName`, `n` its
  `Name.CompliantName()` and `a` the `As.CompliantName()` of the expression;
* `aliasedSubquery sub a`: an `AliasedTableExpr` whose `Expr` is a `*Subquery`, `sub` the
  struct it points to and `a` the `As.String()` of the expression;
* `aliasedNone`: an `AliasedTableExpr` whose `Expr` is neither of the two;
* `colName q n`: a `ColName`, with `Qualifier.Name.CompliantName()` and
  `Name.CompliantName()`;
* `columns names`: a slice of type `Columns`, the `CompliantName()` of each identifier;
* `slice elems`: any other array or slice;
* `iface value`: an interface value, `value` what it holds (dereferenced);
* `other`: a value of any other kind (string, number, bool, nil pointer, nil interface). -/
inductive Node where
  | struct (typeName : String) (fields : List Node)
  | starExpr (tableName : String)
  | tableName (name qualifier : String)
  | aliasedTable (name aliasName : String)
  | aliasedSubquery (sub : Node) (aliasName : String)
  | aliasedNone
  | colName (qualifier name : String)
  | columns (names : List String)
  | slice (elems : List Node)
  | iface (value : Node)
  | other

/-! ## Deduplicator / sorter -/

/-- Go's `<` on two strings, given as character lists: lexicographic, a proper prefix
is smaller. -/
def stringLess : List Char → List Char → Bool
  | _, [] => false
  | [], _ :: _ => true
  | a :: as, b :: bs =>
    if a.toNat < b.toNat then true
    else if b.toNat < a.toNat then false
    else stringLess as bs

/-- The string that `less` of `sortAndUnique` builds for one element:
`TableName + ":" + ColumnName + ":" + QueryType`. -/
def sortKey (c : ColumnAccess) : String :=
  c.TableName ++ ":" ++ c.ColumnName ++ ":" ++ c.QueryType

/-- The closure `less` of `sortAndUnique`, on the elements instead of their indices. -/
def less (a b : ColumnAccess) : Bool :=
  stringLess (sortKey a).data (sortKey b).data

/-- The relation "not greater" that `less` induces; it is the order `sortSlice` sorts by. -/
def notGreater (a b : ColumnAccess) : Prop := less b a = false

instance notGreater.decidable : DecidableRel notGreater :=
  fun a b => inferInstanceAs (Decidable (less b a = false))

/-- Model of the library call `sort.Slice(cols, less)`: the slice sorted by `less`.  The
library sort is not stable; this model is the insertion sort that the library itself
runs on slices shorter than 12 elements.  The theorems below use of it only that its
result is a permutation of the input, ascending by `less`. -/
def sortSlice (cols : List ColumnAccess) : List ColumnAccess :=
  List.insertionSort notGreater cols

/-- The compaction loop of `unique.Slice`: `last` is the element kept last (`cols[i]`),
the list is what is still to be read (`cols[j..]`); an element is kept exactly when
`less(i, j)` holds. -/
def uniqueLoop (last : ColumnAccess) : List ColumnAccess → List ColumnAccess
  | [] => []
  | b :: rest => if less last b then b :: uniqueLoop b rest else uniqueLoop last rest

/-- Model of the library call `unique.Slice(&cols, less)`: a slice of at most one element
is left as it is; any other is sorted with `sort.Slice`, then its first element and every
later element that `less` tells apart from the element kept before it are kept. -/
def uniqueSlice (cols : List ColumnAccess) : List ColumnAccess :=
  if cols.length ≤ 1 then cols
  else
    match sortSlice cols with
    | [] => []
    | a :: rest => a :: uniqueLoop a rest

/-- `sortAndUnique(cols)`. -/
def sortAndUnique (cols : List ColumnAccess) : List ColumnAccess :=
  uniqueSlice cols

/-! ## Post-resolution pass -/

/-- The value that the loop of `parseReflect` writes for an empty table name:
`qi.tables[0]` when `len(qi.tables) == 1`, else `strings.Join(qi.tables, ",")`. -/
def fillTable (tables : List String) : String :=
  match tables with
  | [t] => t
  | ts => String.intercalate "," ts

/-- One round of the loop of `parseReflect` on the column `col`: qualifier fill, then the
lookup in `aliasColumnToColumnMapping`, then the lookup in `aliasToTableMapping`. -/
def resolveColumn (qi : QueryInfo) (col : ColumnAccess) : ColumnAccess :=
  let t1 := if col.TableName = "" then fillTable qi.tables else col.TableName
  let t2 :=
    match mapLookup { table := t1, column := col.ColumnName } qi.aliasColumnToColumnMapping with
    | some value => value.table
    | none => t1
  let t3 :=
    match mapLookup t2 qi.aliasToTableMapping with
    | some tableName => tableName
    | none => t2
  { TableName := t3, ColumnName := col.ColumnName, QueryType := col.QueryType }

/-- The body of `parseReflect` after the walk: the discard of a scope whose table list is
the one entry `"dual"`, the loop over the columns, `sortAndUnique`. -/
def postResolution (qi : QueryInfo) : List ColumnAccess :=
  if qi.tables = ["dual"] then []
  else sortAndUnique (qi.columns.map (resolveColumn qi))

/-! ## Subquery scope manager and walker -/

/-- One round of the loop of `traverseSubquery` on the result column `c`. -/
def mergeColumn (aliasName : String) (queryInfo : QueryInfo) (c : ColumnAccess) : QueryInfo :=
  let qi1 :=
    if stringInSlice c.TableName queryInfo.tables then queryInfo
    else { queryInfo with tables := queryInfo.tables ++ [c.TableName] }
  if aliasName ≠ "" then
    { qi1 with
      aliasColumnToColumnMapping :=
        mapStore { table := aliasName, column := c.ColumnName }
          { table := c.TableName, column := c.ColumnName } qi1.aliasColumnToColumnMapping }
  else qi1

/-- `traverseSubquery(v, &queryInfo, alias)`, with `colAcc` the value of `parseReflect(v)`:
the result columns are appended to the columns of the parent, then every one of them is
merged with `mergeColumn`. -/
def traverseSubquery (colAcc : List ColumnAccess) (queryInfo : QueryInfo)
    (aliasName : String) : QueryInfo :=
  colAcc.foldl (mergeColumn aliasName) { queryInfo with columns := queryInfo.columns ++ colAcc }

/-- The names of the statement-root kinds. -/
def statementKinds : List String :=
  ["Select", "Update", "Insert", "Delete", "Create", "Drop"]

/-- The statement type under which the fields of a struct named `typeName` are walked. -/
def fieldQueryType (typeName queryType : String) : String :=
  if stringInSlice typeName statementKinds then typeName else queryType

/-- The loop of the `Columns` case: one column with empty table for every identifier
whose name is not empty. -/
def appendColumns (queryType : String) (columns : List ColumnAccess) :
    List String → List ColumnAccess
  | [] => columns
  | name :: rest =>
    if name = "" then appendColumns queryType columns rest
    else appendColumns queryType
      (columns ++ [{ TableName := "", ColumnName := name, QueryType := queryType }]) rest

mutual
/-- `getTableNames(v, queryInfo, level, queryType, isTable)`; the parameter `isTable` is
passed on and never read, and is left out.

A `Subquery` struct met at a level other than 0 goes to `traverseSubquery(v, ..)`, whose
`parseReflect(v)` walks the same struct again from `NewQueryInfo()`, level 0 and type
`"NULL"`; there the guard fails and the walk goes into the fields.  The definition writes
that second walk as the walk of the fields, so that the recursion is structural;
`getTableNames_subquery` shows that it is `traverseSubquery` of `parseReflect v`.

After the `TableName` case the Go code goes on to the fields of the `TableName`, two
`TableIdent` structs with one string each, which changes nothing. -/
def getTableNames : Node → QueryInfo → Nat → String → QueryInfo
  | .struct typeName fields, queryInfo, level, queryType =>
    if typeName = "Subquery" ∧ level ≠ 0 then
      traverseSubquery
        (postResolution
          (getTableNamesList fields NewQueryInfo (0 + 1) (fieldQueryType typeName "NULL")))
        queryInfo ""
    else
      getTableNamesList fields queryInfo (level + 1) (fieldQueryType typeName queryType)
  | .starExpr tableName, queryInfo, _, queryType =>
    { queryInfo with
      columns := queryInfo.columns ++
        [{ TableName := tableName, ColumnName := "*", QueryType := queryType }] }
  | .tableName tableName qualifier, queryInfo, _, _ =>
    let qualifierName := if qualifier = "" then tableName else qualifier
    { queryInfo with
      tables := queryInfo.tables ++ [tableName]
      aliasToTableMapping := mapStore qualifierName tableName queryInfo.aliasToTableMapping }
  | .aliasedTable tableName aliasName, queryInfo, _, _ =>
    let m := mapStore aliasName tableName queryInfo.aliasToTableMapping
    { queryInfo with
      tables := queryInfo.tables ++ [tableName]
      aliasToTableMapping := if aliasName = "" then mapStore tableName tableName m else m }
  | .aliasedSubquery sub aliasName, queryInfo, _, _ =>
    traverseSubquery (postResolution (getTableNames sub NewQueryInfo 0 "NULL")) queryInfo
      aliasName
  | .aliasedNone, queryInfo, _, _ => queryInfo
  | .colName qualifier name, queryInfo, _, queryType =>
    { queryInfo with
      columns := queryInfo.columns ++
        [{ TableName := qualifier, ColumnName := name, QueryType := queryType }] }
  | .columns names, queryInfo, _, queryType =>
    { queryInfo with columns := appendColumns queryType queryInfo.columns names }
  | .slice elems, queryInfo, level, queryType =>
    getTableNamesList elems queryInfo (level + 1) queryType
  | .iface value, queryInfo, level, queryType =>
    getTableNames value queryInfo (level + 1) queryType
  | .other, queryInfo, _, _ => queryInfo
/-- The loops `queryInfo = getTableNames(child, queryInfo, ..)` over the fields of a
struct or the elements of a slice; `level` is already the level of the children. -/
def getTableNamesList : List Node → QueryInfo → Nat → String → QueryInfo
  | [], queryInfo, _, _ => queryInfo
  | v :: rest, queryInfo, level, queryType =>
    getTableNamesList rest (getTableNames v queryInfo level queryType) level queryType
end

/-- `parseReflect(v)`: the walk from a fresh scope at level 0 with statement type
`"NULL"`, then the post-resolution pass. -/
def parseReflect (v : Node) : List ColumnAccess :=
  postResolution (getTableNames v NewQueryInfo 0 "NULL")

/-! ## Redactor -/

/-- Model of the library call `regexp.MustCompile(":\\?\\d*").ReplaceAllString(s, "?")` on
the characters of `s`, read from left to right.  `skip` tells that the characters just
before belong to a match, so that a digit still belongs to it and is dropped; a `:`
followed by `?` starts a match and writes one `?`; any other character is copied.
`\d` is an ASCII digit. -/
def replaceNumbered : Bool → List Char → List Char
  | _, [] => []
  | _, ':' :: '?' :: rest => '?' :: replaceNumbered true rest
  | skip, c :: rest =>
    if skip && c.isDigit then replaceNumbered true rest
    else c :: replaceNumbered false rest

/-- The post-processing of `redactSQLQuery` on the rendered text. -/
def stripNumbering (sql : String) : String :=
  String.mk (replaceNumbered false sql.data)

/-- `redactSQLQuery(stmt)`.  `normalize` stands for `sqlparser.Normalize(stmt, bv, "?")` and
`render` for `sqlparser.String(stmt)`, both of the parser library. -/
def redactSQLQuery {Stmt : Type} (normalize : Stmt → Stmt) (render : Stmt → String)
    (stmt : Stmt) : String :=
  stripNumbering (render (normalize stmt))

/-! ## Definitions used to state the claims -/

/-- A column whose table name and column name hold no `':'`, the separator of `sortKey`. -/
def colonFree (c : ColumnAccess) : Prop :=
  ':' ∉ c.TableName.data ∧ ':' ∉ c.ColumnName.data

instance colonFree.decidable (c : ColumnAccess) : Decidable (colonFree c) :=
  inferInstanceAs (Decidable (_ ∧ _))

/-- The distinct names of a list, in the order of their first occurrence. -/
def distinctNames : List String → List String
  | [] => []
  | a :: rest => a :: (distinctNames rest).filter (fun b => b ≠ a)

/-- The fill value as the specification words it: the single table when the table list
holds exactly one distinct name, otherwise the comma-joined distinct names in the order
of their first occurrence. -/
def specFillTable (tables : List String) : String :=
  match distinctNames tables with
  | [t] => t
  | ts => String.intercalate "," ts

/-! ## Statement trees of the examples

The field lists follow the declarations of the parser library: `Select` has the fields
`Cache`, `Comments`, `Distinct`, `Hints`, `SelectExprs`, `From`, `Where`, `GroupBy`,
`Having`, `OrderBy`, `Limit`, `Lock`; `AliasedExpr` has `Expr` and `As`; `Subquery` has
`Select`; `SQLVal` has `Type` and `Val`. -/

/-- A `Select` with the given select expressions and table expressions and nothing else. -/
def selectNode (selectExprs tableExprs : List Node) : Node :=
  .struct "Select"
    [.other, .slice [], .other, .other, .slice selectExprs, .slice tableExprs, .other,
      .slice [], .other, .slice [], .other, .other]

/-- An element of `SelectExprs`: a `*AliasedExpr` without alias around the expression. -/
def aliasedExpr (expr : Node) : Node :=
  .iface (.struct "AliasedExpr" [.iface expr, .struct "ColIdent" [.slice [], .other, .other]])

/-- An element of `TableExprs`: the table `name`, aliased `aliasName` (empty: no alias). -/
def tableExpr (name aliasName : String) : Node :=
  .iface (.aliasedTable name aliasName)

/-- A `Subquery` struct around a statement. -/
def subqueryNode (stmt : Node) : Node :=
  .struct "Subquery" [.iface stmt]

/-- The tree of `select 1`: the parser gives a statement without `from` the table `dual`. -/
def stmtSelectOne : Node :=
  selectNode [aliasedExpr (.struct "SQLVal" [.other, .slice [.other]])] [tableExpr "dual" ""]

/-- The tree of `select a.x from t as a`. -/
def stmtExplicitAlias : Node :=
  selectNode [aliasedExpr (.colName "a" "x")] [tableExpr "t" "a"]

/-- The tree of `select a.x from dual as a`. -/
def stmtDualAlias : Node :=
  selectNode [aliasedExpr (.colName "a" "x")] [tableExpr "dual" "a"]

/-- The tree of `select a.x from t as a, u as a`. -/
def stmtAliasTwice : Node :=
  selectNode [aliasedExpr (.colName "a" "x")] [tableExpr "t" "a", tableExpr "u" "a"]

/-- The tree of `select b.y from b`. -/
def stmtInner : Node :=
  selectNode [aliasedExpr (.colName "b" "y")] [tableExpr "b" ""]

/-- The tree of `select s.y from (select b.y from b) as s`. -/
def stmtAliasedSubquery : Node :=
  selectNode [aliasedExpr (.colName "s" "y")]
    [.iface (.aliasedSubquery (subqueryNode stmtInner) "s")]

/-- The tree of `select s.y from (select b.y from b) as s, u as b`. -/
def stmtSubqueryShadowed : Node :=
  selectNode [aliasedExpr (.colName "s" "y")]
    [.iface (.aliasedSubquery (subqueryNode stmtInner) "s"), tableExpr "u" "b"]

mutual
/-- The table names of the table references (`TableName` values and direct references of
`AliasedTableExpr`) of a tree, in the order of the walk. -/
def tableRefs : Node → List String
  | .struct _ fields => tableRefsList fields
  | .starExpr _ => []
  | .tableName name _ => [name]
  | .aliasedTable name _ => [name]
  | .aliasedSubquery sub _ => tableRefs sub
  | .aliasedNone => []
  | .colName _ _ => []
  | .columns _ => []
  | .slice elems => tableRefsList elems
  | .iface value => tableRefs value
  | .other => []
/-- The table references of a list of trees. -/
def tableRefsList : List Node → List String
  | [] => []
  | v :: rest => tableRefs v ++ tableRefsList rest
end

mutual
/-- Whether a tree holds no subquery: no struct named `Subquery` and no
`AliasedTableExpr` around one. -/
def subqueryFree : Node → Bool
  | .struct typeName fields => typeName ≠ "Subquery" && subqueryFreeList fields
  | .starExpr _ => true
  | .tableName _ _ => true
  | .aliasedTable _ _ => true
  | .aliasedSubquery _ _ => false
  | .aliasedNone => true
  | .colName _ _ => true
  | .columns _ => true
  | .slice elems => subqueryFreeList elems
  | .iface value => subqueryFree value
  | .other => true
/-- Whether no tree of a list holds a subquery. -/
def subqueryFreeList : List Node → Bool
  | [] => true
  | v :: rest => subqueryFree v && subqueryFreeList rest
end

mutual
/-- Whether every column reference and every star expression of a tree is unqualified. -/
def unqualified : Node → Bool
  | .struct _ fields => unqualifiedList fields
  | .starExpr tableName => tableName = ""
  | .tableName _ _ => true
  | .aliasedTable _ _ => true
  | .aliasedSubquery sub _ => unqualified sub
  | .aliasedNone => true
  | .colName qualifier _ => qualifier = ""
  | .columns _ => true
  | .slice elems => unqualifiedList elems
  | .iface value => unqualified value
  | .other => true
/-- Whether every reference in a list of trees is unqualified. -/
def unqualifiedList : List Node → Bool
  | [] => true
  | v :: rest => unqualified v && unqualifiedList rest
end

/-- The tree of `select * from t`. -/
def stmtStar : Node :=
  selectNode [.iface (.starExpr "")] [tableExpr "t" ""]

/-- The tree of `select x from (select 1) as s`. -/
def stmtTablelessSubquery : Node :=
  selectNode [aliasedExpr (.colName "" "x")]
    [.iface (.aliasedSubquery (subqueryNode stmtSelectOne) "s")]

/-- What the walk of a tree without subquery and without qualifier does to a scope:
it appends the table references `refs`, leaves the alias-column map alone, adds only
columns with an empty table and only alias bindings to a table of `refs`. -/
structure PlainStep (refs : List String) (qi qi' : QueryInfo) : Prop where
  tables : qi'.tables = qi.tables ++ refs
  aliasColumn : qi'.aliasColumnToColumnMapping = qi.aliasColumnToColumnMapping
  columns : ∀ c ∈ qi'.columns, c ∈ qi.columns ∨ c.TableName = ""
  aliases : ∀ p ∈ qi'.aliasToTableMapping, p ∈ qi.aliasToTableMapping ∨ p.2 ∈ refs

/-! ## Entry points -/

/-- The parser library as the entry points use it: `parse` is `sqlparser.Parse`,
`message` is `Error()` of its error, `reflect` is
`reflect.Indirect(reflect.ValueOf(stmt))`, `normalize` is `sqlparser.Normalize(stmt, bv, "?")`
and `render` is `sqlparser.String(stmt)`. -/
structure Parser (Stmt Err : Type) where
  parse : String → Except Err Stmt
  message : Err → String
  reflect : Stmt → Node
  normalize : Stmt → Stmt
  render : Stmt → String

/-- The struct `JsonResponse`; a nil slice is the empty list. -/
structure JsonResponse where
  ColumnAccessPatterns : List ColumnAccess
  RedactedQuery : String
  Error : String
deriving DecidableEq, Repr

/-- `RedactSQLQuery(sql)`: the pair of the redacted text and the error, `none` for `nil`. -/
def RedactSQLQuery {Stmt Err : Type} (p : Parser Stmt Err) (sql : String) :
    String × Option Err :=
  match p.parse sql with
  | .error err => ("", some err)
  | .ok stmt => (redactSQLQuery p.normalize p.render stmt, none)

/-- `parseQuery(query)`: the pair of the columns and the error; the nil slice of the
failure is the empty list. -/
def parseQuery {Stmt Err : Type} (p : Parser Stmt Err) (query : String) :
    List ColumnAccess × Option Err :=
  match p.parse query with
  | .error e => ([], some e)
  | .ok stmt => (parseReflect (p.reflect stmt), none)

/-- The value `response` that `parseReturnJson(query)` builds before it marshals it. -/
def parseResponse {Stmt Err : Type} (p : Parser Stmt Err) (query : String) : JsonResponse :=
  match p.parse query with
  | .error e => { ColumnAccessPatterns := [], RedactedQuery := "", Error := p.message e }
  | .ok stmt =>
    { ColumnAccessPatterns := parseReflect (p.reflect stmt)
      RedactedQuery := redactSQLQuery p.normalize p.render stmt
      Error := "" }

/-- `parseReturnJson(query)`; `marshal` stands for `json.Marshal` followed by `string`. -/
def parseReturnJson {Stmt Err : Type} (marshal : JsonResponse → String)
    (p : Parser Stmt Err) (query : String) : String :=
  marshal (parseResponse p query)

/-- A parser for the examples: it knows the text `select 1` and nothing else. -/
def toyParser : Parser Node String where
  parse := fun sql => if sql = "select 1" then .ok stmtSelectOne else .error "syntax error"
  message := fun e => e
  reflect := fun stmt => stmt
  normalize := fun stmt => stmt
  render := fun _ => "select :?1 from dual"

/-! ## The scope of one walk -/

mutual
/-- The columns that the walk of a tree at `level` merges in from the subqueries nested
in its scope. -/
def mergedColumns : Node → Nat → List ColumnAccess
  | .struct typeName fields, level =>
    if typeName = "Subquery" ∧ level ≠ 0 then parseReflect (.struct typeName fields)
    else mergedColumnsList fields (level + 1)
  | .starExpr _, _ => []
  | .tableName _ _, _ => []
  | .aliasedTable _ _, _ => []
  | .aliasedSubquery sub _, _ => parseReflect sub
  | .aliasedNone, _ => []
  | .colName _ _, _ => []
  | .columns _, _ => []
  | .slice elems, level => mergedColumnsList elems (level + 1)
  | .iface value, level => mergedColumns value (level + 1)
  | .other, _ => []
/-- The same for the children of a struct or slice, `level` being their level. -/
def mergedColumnsList : List Node → Nat → List ColumnAccess
  | [], _ => []
  | v :: rest, level => mergedColumns v level ++ mergedColumnsList rest level
end

/-- The table name of a column after the qualifier fill of the loop of `parseReflect`. -/
def tableAfterFill (qi : QueryInfo) (col : ColumnAccess) : String :=
  if col.TableName = "" then fillTable qi.tables else col.TableName

/-- The table name of a column after the qualifier fill and the lookup in
`aliasColumnToColumnMapping`: what the loop looks up in `aliasToTableMapping`. -/
def tableAfterColumnRemap (qi : QueryInfo) (col : ColumnAccess) : String :=
  match mapLookup { table := tableAfterFill qi col, column := col.ColumnName }
      qi.aliasColumnToColumnMapping with
  | some value => value.table
  | none => tableAfterFill qi col

/-- The tree of `insert into t (a) select x from u`; `Insert` has the fields `Action`,
`Comments`, `Ignore`, `Table`, `Partitions`, `Columns`, `Rows`, `OnDup`. -/
def stmtInsertSelect : Node :=
  .struct "Insert"
    [.other, .slice [], .other, .tableName "t" "", .slice [], .columns ["a"],
      .iface (selectNode [aliasedExpr (.colName "" "x")] [tableExpr "u" ""]), .slice []]

/-- The tree of `select x from t as a`. -/
def stmtAliasedTable : Node :=
  selectNode [aliasedExpr (.colName "" "x")] [tableExpr "t" "a"]

/-! ## The recursion of the source -/

mutual
/-- The number of nodes of a tree. -/
def nodeSize : Node → Nat
  | .struct _ fields => 1 + nodeSizeList fields
  | .starExpr _ => 1
  | .tableName _ _ => 1
  | .aliasedTable _ _ => 1
  | .aliasedSubquery sub _ => 1 + nodeSize sub
  | .aliasedNone => 1
  | .colName _ _ => 1
  | .columns _ => 1
  | .slice elems => 1 + nodeSizeList elems
  | .iface value => 1 + nodeSize value
  | .other => 1
/-- The number of nodes of a list of trees, one more for every tree. -/
def nodeSizeList : List Node → Nat
  | [] => 0
  | v :: rest => 1 + nodeSize v + nodeSizeList rest
end

/-- The measure of a call `getTableNames(v, .., level, ..)`: a call at level 0 is smaller
than the `parseReflect(v)` that makes it, which is smaller than the `traverseSubquery(v, ..)`
that makes it, which is smaller than a call on `v` at another level. -/
def getTableNamesMeasure (v : Node) (level : Nat) : Nat :=
  4 * nodeSize v + (if level = 0 then 0 else 3)

/-- The measure of a call `parseReflect(v)`. -/
def parseReflectMeasure (v : Node) : Nat := 4 * nodeSize v + 1

/-- The measure of a call `traverseSubquery(v, ..)`. -/
def traverseSubqueryMeasure (v : Node) : Nat := 4 * nodeSize v + 2

/-- The measure of a loop over the children `vs`. -/
def loopMeasure (vs : List Node) : Nat := 4 * nodeSizeList vs + 1

mutual
/-- `getTableNames` with the recursion of the source: a `Subquery` struct at a level
other than 0 is handed to `traverseSubquery`, which calls `parseReflect` on the same
struct, which calls `getTableNames` on it at level 0. -/
def getTableNamesSrc (v : Node) (queryInfo : QueryInfo) (level : Nat) (queryType : String) :
    QueryInfo :=
  match v with
  | .struct typeName fields =>
    if typeName = "Subquery" ∧ level ≠ 0 then
      traverseSubquerySrc (.struct typeName fields) queryInfo ""
    else
      getTableNamesListSrc fields queryInfo (level + 1) (fieldQueryType typeName queryType)
  | .starExpr tableName =>
    { queryInfo with
      columns := queryInfo.columns ++
        [{ TableName := tableName, ColumnName := "*", QueryType := queryType }] }
  | .tableName tableName qualifier =>
    let qualifierName := if qualifier = "" then tableName else qualifier
    { queryInfo with
      tables := queryInfo.tables ++ [tableName]
      aliasToTableMapping := mapStore qualifierName tableName queryInfo.aliasToTableMapping }
  | .aliasedTable tableName aliasName =>
    let m := mapStore aliasName tableName queryInfo.aliasToTableMapping
    { queryInfo with
      tables := queryInfo.tables ++ [tableName]
      aliasToTableMapping := if aliasName = "" then mapStore tableName tableName m else m }
  | .aliasedSubquery sub aliasName => traverseSubquerySrc sub queryInfo aliasName
  | .aliasedNone => queryInfo
  | .colName qualifier name =>
    { queryInfo with
      columns := queryInfo.columns ++
        [{ TableName := qualifier, ColumnName := name, QueryType := queryType }] }
  | .columns names =>
    { queryInfo with columns := appendColumns queryType queryInfo.columns names }
  | .slice elems => getTableNamesListSrc elems queryInfo (level + 1) queryType
  | .iface value => getTableNamesSrc value queryInfo (level + 1) queryType
  | .other => queryInfo
termination_by getTableNamesMeasure v level
decreasing_by
  all_goals simp_wf
  all_goals
    simp only [getTableNamesMeasure, traverseSubqueryMeasure, loopMeasure, nodeSize]
    first | omega | (split_ifs <;> omega)
/-- The loops over the children, with the recursion of the source. -/
def getTableNamesListSrc (vs : List Node) (queryInfo : QueryInfo) (level : Nat)
    (queryType : String) : QueryInfo :=
  match vs with
  | [] => queryInfo
  | v :: rest =>
    getTableNamesListSrc rest (getTableNamesSrc v queryInfo level queryType) level queryType
termination_by loopMeasure vs
decreasing_by
  all_goals simp_wf
  all_goals
    simp only [getTableNamesMeasure, loopMeasure, nodeSizeList]
    first | omega | (split_ifs <;> omega)
/-- `traverseSubquery(v, &queryInfo, alias)` with its call of `parseReflect(v)`. -/
def traverseSubquerySrc (v : Node) (queryInfo : QueryInfo) (aliasName : String) : QueryInfo :=
  traverseSubquery (parseReflectSrc v) queryInfo aliasName
termination_by traverseSubqueryMeasure v
decreasing_by
  all_goals simp_wf
  all_goals
    simp only [traverseSubqueryMeasure, parseReflectMeasure]
    omega
/-- `parseReflect(v)` with its call of `getTableNames(v, *NewQueryInfo(), 0, "NULL", false)`. -/
def parseReflectSrc (v : Node) : List ColumnAccess :=
  postResolution (getTableNamesSrc v NewQueryInfo 0 "NULL")
termination_by parseReflectMeasure v
decreasing_by
  all_goals simp_wf
  all_goals
    simp only [getTableNamesMeasure, parseReflectMeasure]
    simp
end

/-! ## The reference definition of the placeholder stripping -/

/-- Whether a text holds the marker prefix `:?`. -/
def hasMarker : List Char → Bool
  | [] => false
  | c :: rest => (c == ':' && rest.head? == some '?') || hasMarker rest

/-- Whether a text starts with an ASCII digit. -/
def startsWithDigit : List Char → Bool
  | [] => false
  | c :: _ => c.isDigit

/-- Whether a text holds a numbered marker: `:?` with a digit right after it. -/
def hasNumberedMarker : List Char → Bool
  | [] => false
  | c :: rest =>
    (c == ':' &&
        (match rest with
          | '?' :: d :: _ => d.isDigit
          | _ => false)) ||
      hasNumberedMarker rest

/-- The text `":?" ++ d1 ++ s1 ++ ... ++ ":?" ++ dn ++ sn` of the pairs `(di, si)`. -/
def markedTail : List (String × String) → String
  | [] => ""
  | (d, s) :: rest => ":?" ++ d ++ s ++ markedTail rest

/-- The text `"?" ++ s1 ++ ... ++ "?" ++ sn` of the pairs `(di, si)`. -/
def strippedTail : List (String × String) → String
  | [] => ""
  | (_, s) :: rest => "?" ++ s ++ strippedTail rest

/-- The rendered text `s0 ++ ":?" ++ d1 ++ s1 ++ ... ++ ":?" ++ dn ++ sn`. -/
def markedText (s0 : String) (segments : List (String × String)) : String :=
  s0 ++ markedTail segments

/-- The reference result `s0 ++ "?" ++ s1 ++ ... ++ "?" ++ sn`. -/
def strippedText (s0 : String) (segments : List (String × String)) : String :=
  s0 ++ strippedTail segments

/-! ## What the walk of one scope registers and emits -/

mutual
/-- The stores `aliasToTableMapping[key] = table` that the walk of a tree at `level` makes
in its own scope, as pairs `(key, table)`: a reference `t as a` gives `(a, t)`, a
reference to `t` without alias gives `("", t)` and `(t, t)`, a `TableName` gives its
qualifier, or else its name, with its name. -/
def scopeBindings : Node → Nat → List (String × String)
  | .struct typeName fields, level =>
    if typeName = "Subquery" ∧ level ≠ 0 then [] else scopeBindingsList fields (level + 1)
  | .starExpr _, _ => []
  | .tableName name qualifier, _ => [(if qualifier = "" then name else qualifier, name)]
  | .aliasedTable name aliasName, _ =>
    if aliasName = "" then [("", name), (name, name)] else [(aliasName, name)]
  | .aliasedSubquery _ _, _ => []
  | .aliasedNone, _ => []
  | .colName _ _, _ => []
  | .columns _, _ => []
  | .slice elems, level => scopeBindingsList elems (level + 1)
  | .iface value, level => scopeBindings value (level + 1)
  | .other, _ => []
/-- The same for the children of a struct or slice, `level` being their level. -/
def scopeBindingsList : List Node → Nat → List (String × String)
  | [], _ => []
  | v :: rest, level => scopeBindings v level ++ scopeBindingsList rest level
end

mutual
/-- The aliased subqueries that the walk of a tree at `level` merges into its own scope:
the external alias as stored (`As.String()`) with the result of `parseReflect` on the
subquery. -/
def scopeAliasedSubqueries : Node → Nat → List (String × List ColumnAccess)
  | .struct typeName fields, level =>
    if typeName = "Subquery" ∧ level ≠ 0 then []
    else scopeAliasedSubqueriesList fields (level + 1)
  | .starExpr _, _ => []
  | .tableName _ _, _ => []
  | .aliasedTable _ _, _ => []
  | .aliasedSubquery sub aliasName, _ => [(aliasName, parseReflect sub)]
  | .aliasedNone, _ => []
  | .colName _ _, _ => []
  | .columns _, _ => []
  | .slice elems, level => scopeAliasedSubqueriesList elems (level + 1)
  | .iface value, level => scopeAliasedSubqueries value (level + 1)
  | .other, _ => []
/-- The same for the children of a struct or slice, `level` being their level. -/
def scopeAliasedSubqueriesList : List Node → Nat → List (String × List ColumnAccess)
  | [], _ => []
  | v :: rest, level => scopeAliasedSubqueries v level ++ scopeAliasedSubqueriesList rest level
end

/-- The statement type of a column that lies below the structs `path` (innermost first)
in a walk entered with `queryType`: the name of the nearest struct that is a statement
root, and `queryType` when there is none. -/
def typeOfPath : List String → String → String
  | [], queryType => queryType
  | typeName :: rest, queryType =>
    if stringInSlice typeName statementKinds then typeName else typeOfPath rest queryType

mutual
/-- The columns that the walk of a tree at `level` appends, in order, when it was entered
with `queryType` below the structs `path`: a column reference, star expression or column
list entry with the statement type of its nearest enclosing statement root, and the
result of a nested subquery as `parseReflect` returned it. -/
def scopeEmitted : Node → Nat → List String → String → List ColumnAccess
  | .struct typeName fields, level, path, queryType =>
    if typeName = "Subquery" ∧ level ≠ 0 then parseReflect (.struct typeName fields)
    else scopeEmittedList fields (level + 1) (typeName :: path) queryType
  | .starExpr tableName, _, path, queryType =>
    [{ TableName := tableName, ColumnName := "*", QueryType := typeOfPath path queryType }]
  | .tableName _ _, _, _, _ => []
  | .aliasedTable _ _, _, _, _ => []
  | .aliasedSubquery sub _, _, _, _ => parseReflect sub
  | .aliasedNone, _, _, _ => []
  | .colName qualifier name, _, path, queryType =>
    [{ TableName := qualifier, ColumnName := name, QueryType := typeOfPath path queryType }]
  | .columns names, _, path, queryType =>
    (names.filter (fun n => n ≠ "")).map
      (fun n => { TableName := "", ColumnName := n, QueryType := typeOfPath path queryType })
  | .slice elems, level, path, queryType => scopeEmittedList elems (level + 1) path queryType
  | .iface value, level, path, queryType => scopeEmitted value (level + 1) path queryType
  | .other, _, _, _ => []
/-- The same for the children of a struct or slice, `level` being their level. -/
def scopeEmittedList : List Node → Nat → List String → String → List ColumnAccess
  | [], _, _, _ => []
  | v :: rest, level, path, queryType =>
    scopeEmitted v level path queryType ++ scopeEmittedList rest level path queryType
end

mutual
/-- Whether no name of a tree that the walk writes into a table or column field holds
`':'`.  The names of a tree are values of `CompliantName()`, which writes `_` for every
character that is not a letter or a digit, so this holds of every tree the parser
delivers. -/
def colonFreeNames : Node → Bool
  | .struct _ fields => colonFreeNamesList fields
  | .starExpr tableName => decide (':' ∉ tableName.data)
  | .tableName name _ => decide (':' ∉ name.data)
  | .aliasedTable name _ => decide (':' ∉ name.data)
  | .aliasedSubquery sub _ => colonFreeNames sub
  | .aliasedNone => true
  | .colName qualifier name => decide (':' ∉ qualifier.data) && decide (':' ∉ name.data)
  | .columns names => decide (∀ n ∈ names, ':' ∉ n.data)
  | .slice elems => colonFreeNamesList elems
  | .iface value => colonFreeNames value
  | .other => true
/-- The same for a list of trees. -/
def colonFreeNamesList : List Node → Bool
  | [] => true
  | v :: rest => colonFreeNames v && colonFreeNamesList rest
end

/-- A scope none of whose tables, alias targets and columns holds `':'` in a name. -/
structure ColonFreeScope (qi : QueryInfo) : Prop where
  tables : ∀ t ∈ qi.tables, ':' ∉ t.data
  aliases : ∀ p ∈ qi.aliasToTableMapping, ':' ∉ p.2.data
  aliasColumns : ∀ p ∈ qi.aliasColumnToColumnMapping, ':' ∉ p.2.table.data
  columns : ∀ c ∈ qi.columns, colonFree c

/-- The tree of `set x = (select b.y from b)`; `Set` has the fields `Comments` and
`Exprs`, an `UpdateExpr` has `Name` and `Expr`. -/
def stmtSetSubquery : Node :=
  .struct "Set"
    [.slice [], .slice [.struct "UpdateExpr" [.colName "" "x", .iface (subqueryNode stmtInner)]]]

/-- The tree of `select dual.y from dual, dual`. -/
def stmtInnerDual : Node :=
  selectNode [aliasedExpr (.colName "dual" "y")] [tableExpr "dual" "", tableExpr "dual" ""]

/-- The tree of `select s.y from (select dual.y from dual, dual) as s`. -/
def stmtSubqueryDual : Node :=
  selectNode [aliasedExpr (.colName "s" "y")]
    [.iface (.aliasedSubquery (subqueryNode stmtInnerDual) "s")]

/-- The tree of `select d.y from d`. -/
def stmtInnerOther : Node :=
  selectNode [aliasedExpr (.colName "d" "y")] [tableExpr "d" ""]

/-- The tree of
`update t, (select b.y from b) as s, (select d.y from d) as s set t.a = s.y`; `Update` has
the fields `Comments`, `TableExprs`, `Exprs`, `Where`, `OrderBy`, `Limit`. -/
def stmtAliasedSubqueryTwice : Node :=
  .struct "Update"
    [.slice [],
      .slice [tableExpr "t" "", .iface (.aliasedSubquery (subqueryNode stmtInner) "s"),
        .iface (.aliasedSubquery (subqueryNode stmtInnerOther) "s")],
      .slice [.struct "UpdateExpr" [.colName "t" "a", .iface (.colName "s" "y")]], .other,
      .slice [], .other]

/-- The tree of `select y from b_1`, the table written `b-1` in the statement. -/
def stmtInnerQuoted : Node :=
  selectNode [aliasedExpr (.colName "" "y")] [tableExpr "b_1" ""]

/-- The tree of ``select `s-1`.y from (select y from `b-1`) as `s-1` ``: the alias of the
subquery is kept as written, the qualifier of the column is read as `s_1`. -/
def stmtRawAlias : Node :=
  selectNode [aliasedExpr (.colName "s_1" "y")]
    [.iface (.aliasedSubquery (subqueryNode stmtInnerQuoted) "s-1")]

/-- What a walk has stored into the two alias maps of its scope: the bindings of the
table references of the scope, and one entry for every result column of every
subquery merged under a non-empty alias. -/
structure Registers (bindings : List (String × String))
    (subqueries : List (String × List ColumnAccess)) (qi qi' : QueryInfo) : Prop where
  aliases : ∀ p, p ∈ qi'.aliasToTableMapping ↔ p ∈ qi.aliasToTableMapping ∨ p ∈ bindings
  aliasColumns : ∀ p, p ∈ qi'.aliasColumnToColumnMapping ↔
    p ∈ qi.aliasColumnToColumnMapping ∨
      ∃ m ∈ subqueries, m.1 ≠ "" ∧
        ∃ e ∈ m.2, p = (⟨m.1, e.ColumnName⟩, ⟨e.TableName, e.ColumnName⟩)

/-! ## The walk of a subquery, as the source words it -/

theorem getTableNames_subquery (fields : List Node) (queryInfo : QueryInfo) (level : Nat)
    (queryType : String) :
    getTableNames (.struct "Subquery" fields) queryInfo (level + 1) queryType =
      traverseSubquery (parseReflect (.struct "Subquery" fields)) queryInfo "" := by
  simp [getTableNames, parseReflect]

theorem getTableNames_aliasedSubquery (sub : Node) (aliasName : String)
    (queryInfo : QueryInfo) (level : Nat) (queryType : String) :
    getTableNames (.aliasedSubquery sub aliasName) queryInfo level queryType =
      traverseSubquery (parseReflect sub) queryInfo aliasName := by
  simp [getTableNames, parseReflect]

/-! ## The order of the sort keys -/

theorem char_eq_of_toNat_eq {a b : Char} (h : a.toNat = b.toNat) : a = b := by
  rw [← Char.ofNat_toNat a, ← Char.ofNat_toNat b, h]

theorem stringLess_irrefl (a : List Char) : stringLess a a = false := by
  induction a with
  | nil => rfl
  | cons c cs ih => simp [stringLess, ih]

theorem stringLess_trans {a b c : List Char} (hab : stringLess a b = true)
    (hbc : stringLess b c = true) : stringLess a c = true := by
  induction a generalizing b c with
  | nil =>
    cases b with
    | nil => simp [stringLess] at hab
    | cons y ys =>
      cases c with
      | nil => simp [stringLess] at hbc
      | cons z zs => simp [stringLess]
  | cons x xs ih =>
    cases b with
    | nil => simp [stringLess] at hab
    | cons y ys =>
      cases c with
      | nil => simp [stringLess] at hbc
      | cons z zs =>
        simp only [stringLess] at hab hbc ⊢
        split_ifs at hab hbc ⊢ <;> first | rfl | omega | exact ih hab hbc

theorem stringLess_connected {a b : List Char} (hab : stringLess a b = false)
    (hba : stringLess b a = false) : a = b := by
  induction a generalizing b with
  | nil =>
    cases b with
    | nil => rfl
    | cons y ys => simp [stringLess] at hab
  | cons x xs ih =>
    cases b with
    | nil => simp [stringLess] at hba
    | cons y ys =>
      simp only [stringLess] at hab hba
      split_ifs at hab hba
      have hxy : x = y := char_eq_of_toNat_eq (by omega)
      rw [hxy, ih hab hba]

theorem stringLess_asymm {a b : List Char} (hab : stringLess a b = true) :
    stringLess b a = false := by
  cases h : stringLess b a with
  | false => rfl
  | true =>
    have := stringLess_trans hab h
    rw [stringLess_irrefl] at this
    exact absurd this (by decide)

theorem less_trans {a b c : ColumnAccess} (hab : less a b = true) (hbc : less b c = true) :
    less a c = true :=
  stringLess_trans hab hbc

theorem less_irrefl (a : ColumnAccess) : less a a = false :=
  stringLess_irrefl _

theorem sortKey_eq_of_not_less {a b : ColumnAccess} (hab : less a b = false)
    (hba : less b a = false) : sortKey a = sortKey b := by
  have h := stringLess_connected hab hba
  exact String.ext h

theorem notGreater_total (a b : ColumnAccess) : notGreater a b ∨ notGreater b a := by
  unfold notGreater
  cases h : less b a with
  | false => exact Or.inl rfl
  | true => exact Or.inr (stringLess_asymm h)

theorem notGreater_trans {a b c : ColumnAccess} (hab : notGreater a b)
    (hbc : notGreater b c) : notGreater a c := by
  unfold notGreater at *
  cases hca : less c a with
  | false => rfl
  | true =>
    cases hbc' : less b c with
    | true =>
      have := less_trans hbc' hca
      rw [hab] at this
      exact absurd this (by decide)
    | false =>
      have hk : sortKey c = sortKey b := sortKey_eq_of_not_less hbc hbc'
      have : less b a = less c a := by unfold less; rw [hk]
      rw [hab, hca] at this
      exact absurd this (by decide)

theorem sortSlice_perm (cols : List ColumnAccess) : (sortSlice cols).Perm cols :=
  List.perm_insertionSort notGreater cols

theorem sortSlice_sorted (cols : List ColumnAccess) :
    (sortSlice cols).Pairwise notGreater := by
  haveI : IsTotal ColumnAccess notGreater := ⟨notGreater_total⟩
  haveI : IsTrans ColumnAccess notGreater := ⟨fun _ _ _ => notGreater_trans⟩
  exact List.sorted_insertionSort notGreater cols

/-! ## What the compaction loop keeps -/

theorem uniqueLoop_chain (last : ColumnAccess) (l : List ColumnAccess) :
    List.Chain (fun a b => less a b = true) last (uniqueLoop last l) := by
  induction l generalizing last with
  | nil => exact List.Chain.nil
  | cons b rest ih =>
    unfold uniqueLoop
    split_ifs with h
    · exact List.Chain.cons h (ih b)
    · exact ih last

theorem uniqueLoop_subset (last : ColumnAccess) (l : List ColumnAccess) :
    ∀ c ∈ uniqueLoop last l, c ∈ l := by
  induction l generalizing last with
  | nil => intro c hc; simp [uniqueLoop] at hc
  | cons b rest ih =>
    intro c hc
    unfold uniqueLoop at hc
    split_ifs at hc with h
    · rcases List.mem_cons.1 hc with rfl | hc
      · exact List.mem_cons_self _ _
      · exact List.mem_cons_of_mem _ (ih b c hc)
    · exact List.mem_cons_of_mem _ (ih last c hc)

theorem uniqueLoop_keeps_key (last : ColumnAccess) (l : List ColumnAccess)
    (hs : (last :: l).Pairwise notGreater) :
    ∀ c ∈ l, ∃ d ∈ last :: uniqueLoop last l, sortKey d = sortKey c := by
  induction l generalizing last with
  | nil => intro c hc; simp at hc
  | cons b rest ih =>
    intro c hc
    have hlb : notGreater last b := (List.pairwise_cons.1 hs).1 b (List.mem_cons_self _ _)
    have hrest : (b :: rest).Pairwise notGreater := (List.pairwise_cons.1 hs).2
    have hlast : (last :: rest).Pairwise notGreater := by
      refine List.pairwise_cons.2 ⟨fun x hx => ?_, (List.pairwise_cons.1 hrest).2⟩
      exact (List.pairwise_cons.1 hs).1 x (List.mem_cons_of_mem _ hx)
    unfold uniqueLoop
    split_ifs with h
    · rcases List.mem_cons.1 hc with rfl | hc
      · exact ⟨c, by simp, rfl⟩
      · obtain ⟨d, hd, hk⟩ := ih b hrest c hc
        exact ⟨d, List.mem_cons_of_mem _ hd, hk⟩
    · rcases List.mem_cons.1 hc with rfl | hc
      · refine ⟨last, List.mem_cons_self _ _, ?_⟩
        exact sortKey_eq_of_not_less (by simpa using h) hlb
      · exact ih last hlast c hc

theorem uniqueSlice_chain (cols : List ColumnAccess) :
    List.Chain' (fun a b => less a b = true) (uniqueSlice cols) := by
  unfold uniqueSlice
  split_ifs with h
  · match cols, h with
    | [], _ => exact List.chain'_nil
    | [a], _ => exact List.chain'_singleton a
    | _ :: _ :: _, h => simp at h
  · split
    · exact List.chain'_nil
    · exact uniqueLoop_chain _ _

theorem uniqueSlice_subset (cols : List ColumnAccess) :
    ∀ c ∈ uniqueSlice cols, c ∈ cols := by
  intro c hc
  unfold uniqueSlice at hc
  split_ifs at hc with h
  · exact hc
  · split at hc
    · simp at hc
    · rename_i a rest heq
      have hmem : c ∈ sortSlice cols := by
        rw [heq]
        rcases List.mem_cons.1 hc with rfl | hc
        · exact List.mem_cons_self _ _
        · exact List.mem_cons_of_mem _ (uniqueLoop_subset _ _ c hc)
      exact (sortSlice_perm cols).mem_iff.1 hmem

theorem uniqueSlice_keeps_key (cols : List ColumnAccess) :
    ∀ c ∈ cols, ∃ d ∈ uniqueSlice cols, sortKey d = sortKey c := by
  intro c hc
  unfold uniqueSlice
  split_ifs with h
  · exact ⟨c, hc, rfl⟩
  · have hmem : c ∈ sortSlice cols := (sortSlice_perm cols).mem_iff.2 hc
    have hs := sortSlice_sorted cols
    split
    · rename_i heq; rw [heq] at hmem; simp at hmem
    · rename_i a rest heq
      rw [heq] at hmem hs
      rcases List.mem_cons.1 hmem with rfl | hmem
      · exact ⟨c, List.mem_cons_self _ _, rfl⟩
      · exact uniqueLoop_keeps_key a rest hs c hmem

theorem sortAndUnique_pairwise (cols : List ColumnAccess) :
    (sortAndUnique cols).Pairwise (fun a b => less a b = true) := by
  have h := uniqueSlice_chain cols
  have : IsTrans ColumnAccess (fun a b => less a b = true) := ⟨fun _ _ _ => less_trans⟩
  exact List.chain'_iff_pairwise.1 h

theorem pairwise_less_nodup {l : List ColumnAccess}
    (h : l.Pairwise (fun a b => less a b = true)) : l.Nodup := by
  refine h.imp ?_
  intro a b hab heq
  rw [heq, less_irrefl] at hab
  exact absurd hab (by decide)

/-! ## The sort key tells triples apart when no name holds the separator -/

theorem append_colon_inj {a a' r r' : List Char} (ha : ':' ∉ a) (ha' : ':' ∉ a')
    (h : a ++ ':' :: r = a' ++ ':' :: r') : a = a' ∧ r = r' := by
  induction a generalizing a' with
  | nil =>
    cases a' with
    | nil => simpa using h
    | cons y ys =>
      simp only [List.nil_append, List.cons_append, List.cons.injEq] at h
      exact absurd h.1 (by intro hy; exact ha' (by simp [← hy]))
  | cons x xs ih =>
    cases a' with
    | nil =>
      simp only [List.nil_append, List.cons_append, List.cons.injEq] at h
      exact absurd h.1 (by intro hx; exact ha (by simp [hx]))
    | cons y ys =>
      simp only [List.cons_append, List.cons.injEq] at h
      have hx : ':' ∉ xs := fun hm => ha (List.mem_cons_of_mem _ hm)
      have hy : ':' ∉ ys := fun hm => ha' (List.mem_cons_of_mem _ hm)
      obtain ⟨h1, h2⟩ := ih hx hy h.2
      exact ⟨by rw [h.1, h1], h2⟩

theorem sortKey_data (c : ColumnAccess) :
    (sortKey c).data =
      c.TableName.data ++ ':' :: (c.ColumnName.data ++ ':' :: c.QueryType.data) := by
  simp [sortKey, String.data_append]

theorem sortKey_injective {c d : ColumnAccess} (hc : colonFree c) (hd : colonFree d)
    (h : sortKey c = sortKey d) : c = d := by
  have hdata : (sortKey c).data = (sortKey d).data := by rw [h]
  rw [sortKey_data, sortKey_data] at hdata
  obtain ⟨h1, h2⟩ := append_colon_inj hc.1 hd.1 hdata
  obtain ⟨h3, h4⟩ := append_colon_inj hc.2 hd.2 h2
  cases c
  cases d
  simp only [ColumnAccess.mk.injEq]
  exact ⟨String.ext h1, String.ext h3, String.ext h4⟩

theorem distinctNames_of_nodup {l : List String} (h : l.Nodup) : distinctNames l = l := by
  induction l with
  | nil => rfl
  | cons a rest ih =>
    have hr := (List.nodup_cons.1 h).2
    have ha := (List.nodup_cons.1 h).1
    simp only [distinctNames, ih hr, List.cons.injEq, true_and]
    refine List.filter_eq_self.2 ?_
    intro b hb
    simp only [ne_eq, decide_not, Bool.not_eq_eq_eq_not, Bool.not_true, decide_eq_false_iff_not]
    intro hba
    exact ha (hba ▸ hb)

theorem postResolution_of_not_dual {qi : QueryInfo} (h : qi.tables ≠ ["dual"]) :
    postResolution qi = sortAndUnique (qi.columns.map (resolveColumn qi)) := by
  simp [postResolution, h]

theorem sortAndUnique_keeps (cols : List ColumnAccess) (hfree : ∀ c ∈ cols, colonFree c)
    {c : ColumnAccess} (hc : c ∈ cols) : c ∈ sortAndUnique cols := by
  obtain ⟨d, hd, hk⟩ := uniqueSlice_keeps_key cols c hc
  have hdc : d = c := sortKey_injective (hfree d (uniqueSlice_subset cols d hd)) (hfree c hc) hk
  exact hdc ▸ hd

/-! ## Claims C1, C2 and C4 -/

/-- C1: for every scope the result of the post-resolution pass, and so the result of
`parseReflect` on every statement tree, is strictly ascending under the comparison of the
keys `table + ":" + column + ":" + statementType`; hence it holds no triple twice. -/
theorem parseReflect_strictly_ascending (qi : QueryInfo) (v : Node) :
    (postResolution qi).Pairwise (fun a b => less a b = true) ∧ (postResolution qi).Nodup ∧
      (parseReflect v).Pairwise (fun a b => less a b = true) ∧ (parseReflect v).Nodup := by
  have key : ∀ s : QueryInfo, (postResolution s).Pairwise (fun a b => less a b = true) := by
    intro s
    unfold postResolution
    split_ifs
    · exact List.Pairwise.nil
    · exact sortAndUnique_pairwise _
  exact ⟨key qi, pairwise_less_nodup (key qi), key _, pairwise_less_nodup (key _)⟩

/-- C2, as stated, fails: two different triples with the same key, `("a:b", "c")` and
`("a", "b:c")`, are taken for duplicates, and the second is in the input but not in the
output of `sortAndUnique`. -/
theorem sortAndUnique_key_collision :
    (⟨"a", "b:c", "Select"⟩ : ColumnAccess) ∈
        [(⟨"a:b", "c", "Select"⟩ : ColumnAccess), ⟨"a", "b:c", "Select"⟩] ∧
      (⟨"a", "b:c", "Select"⟩ : ColumnAccess) ∉
        sortAndUnique [⟨"a:b", "c", "Select"⟩, ⟨"a", "b:c", "Select"⟩] := by
  decide

/-- C2, amended: on a column sequence in which no table name and no column name holds
the character `':'`, `sortAndUnique` removes only duplicates: every triple of the input
occurs in the output, and every triple of the output occurs in the input. -/
theorem sortAndUnique_same_triples (cols : List ColumnAccess)
    (hfree : ∀ c ∈ cols, colonFree c) :
    (∀ c ∈ cols, c ∈ sortAndUnique cols) ∧ (∀ c ∈ sortAndUnique cols, c ∈ cols) := by
  exact ⟨fun c hc => sortAndUnique_keeps cols hfree hc, uniqueSlice_subset cols⟩

theorem sortAndUnique_same_triples_witness :
    (∀ c ∈ [(⟨"t", "x", "Select"⟩ : ColumnAccess), ⟨"b", "y", "Select"⟩, ⟨"t", "x", "Select"⟩],
        colonFree c) ∧
      ((∀ c ∈ [(⟨"t", "x", "Select"⟩ : ColumnAccess), ⟨"b", "y", "Select"⟩, ⟨"t", "x", "Select"⟩],
          c ∈ sortAndUnique [⟨"t", "x", "Select"⟩, ⟨"b", "y", "Select"⟩, ⟨"t", "x", "Select"⟩]) ∧
        (∀ c ∈ sortAndUnique
            [(⟨"t", "x", "Select"⟩ : ColumnAccess), ⟨"b", "y", "Select"⟩, ⟨"t", "x", "Select"⟩],
          c ∈ [(⟨"t", "x", "Select"⟩ : ColumnAccess), ⟨"b", "y", "Select"⟩,
            ⟨"t", "x", "Select"⟩])) :=
  ⟨by decide, sortAndUnique_same_triples _ (by decide)⟩

/-- C4: for every scope whose table list is exactly the one entry `"dual"`, whatever its
raw columns and alias maps, the post-resolution pass, with which `parseReflect` ends,
returns the empty column sequence. -/
theorem dual_discard (qi : QueryInfo) (h : qi.tables = ["dual"]) : postResolution qi = [] := by
  simp [postResolution, h]

theorem dual_discard_witness :
    (getTableNames stmtSelectOne NewQueryInfo 0 "NULL").tables = ["dual"] ∧
      parseReflect stmtSelectOne = [] :=
  ⟨by decide, dual_discard (getTableNames stmtSelectOne NewQueryInfo 0 "NULL") (by decide)⟩

/-! ## Membership in the result of the post-resolution pass -/

theorem mem_postResolution {qi : QueryInfo} (hd : qi.tables ≠ ["dual"])
    (hfree : ∀ c ∈ qi.columns, colonFree (resolveColumn qi c)) {c : ColumnAccess}
    (hc : c ∈ qi.columns) : resolveColumn qi c ∈ postResolution qi := by
  rw [postResolution_of_not_dual hd]
  refine sortAndUnique_keeps _ ?_ (List.mem_map_of_mem _ hc)
  intro d hd'
  obtain ⟨e, he, rfl⟩ := List.mem_map.1 hd'
  exact hfree e he

theorem postResolution_subset {qi : QueryInfo} {c : ColumnAccess}
    (hc : c ∈ postResolution qi) : ∃ e ∈ qi.columns, c = resolveColumn qi e := by
  unfold postResolution at hc
  split_ifs at hc
  · simp at hc
  · obtain ⟨e, he, rfl⟩ := List.mem_map.1 (uniqueSlice_subset _ c hc)
    exact ⟨e, he, rfl⟩

/-! ## Claim C7: one table, no qualifier -/

theorem PlainStep.refl (qi : QueryInfo) : PlainStep [] qi qi :=
  ⟨by simp, rfl, fun _ h => Or.inl h, fun _ h => Or.inl h⟩

theorem PlainStep.trans {r1 r2 : List String} {qi qi1 qi2 : QueryInfo}
    (h1 : PlainStep r1 qi qi1) (h2 : PlainStep r2 qi1 qi2) : PlainStep (r1 ++ r2) qi qi2 := by
  refine ⟨?_, ?_, ?_, ?_⟩
  · rw [h2.tables, h1.tables, List.append_assoc]
  · rw [h2.aliasColumn, h1.aliasColumn]
  · intro c hc
    rcases h2.columns c hc with h | h
    · exact h1.columns c h
    · exact Or.inr h
  · intro p hp
    rcases h2.aliases p hp with h | h
    · rcases h1.aliases p h with h' | h'
      · exact Or.inl h'
      · exact Or.inr (List.mem_append_left _ h')
    · exact Or.inr (List.mem_append_right _ h)

theorem appendColumns_mem (q : String) (names : List String) :
    ∀ cols : List ColumnAccess, ∀ c ∈ appendColumns q cols names,
      c ∈ cols ∨ c.TableName = "" := by
  induction names with
  | nil => intro cols c hc; exact Or.inl hc
  | cons n rest ih =>
    intro cols c hc
    unfold appendColumns at hc
    split_ifs at hc
    · exact ih cols c hc
    · rcases ih _ c hc with h | h
      · rcases List.mem_append.1 h with h | h
        · exact Or.inl h
        · right
          simp only [List.mem_singleton] at h
          rw [h]
      · exact Or.inr h

mutual
theorem getTableNames_plain (v : Node) (qi : QueryInfo) (level : Nat) (q : String)
    (hs : subqueryFree v = true) (hu : unqualified v = true) :
    PlainStep (tableRefs v) qi (getTableNames v qi level q) := by
  match v with
  | .struct typeName fields =>
    simp only [subqueryFree, Bool.and_eq_true, decide_eq_true_eq] at hs
    simp only [unqualified] at hu
    simp only [getTableNames, tableRefs, hs.1, false_and, if_false]
    exact getTableNamesList_plain fields qi _ _ hs.2 hu
  | .starExpr tableName =>
    simp only [unqualified, decide_eq_true_eq] at hu
    simp only [getTableNames, tableRefs, hu]
    refine ⟨by simp, rfl, ?_, fun _ h => Or.inl h⟩
    intro c hc
    rcases List.mem_append.1 hc with h | h
    · exact Or.inl h
    · right
      simp only [List.mem_singleton] at h
      rw [h]
  | .tableName name qualifier =>
    simp only [getTableNames, tableRefs]
    refine ⟨rfl, rfl, fun _ h => Or.inl h, ?_⟩
    intro p hp
    simp only [mapStore, List.mem_cons] at hp
    rcases hp with h | h
    · right; rw [h]; simp
    · exact Or.inl h
  | .aliasedTable name aliasName =>
    simp only [getTableNames, tableRefs]
    refine ⟨rfl, rfl, fun _ h => Or.inl h, ?_⟩
    intro p hp
    simp only [mapStore] at hp
    split_ifs at hp
    · simp only [List.mem_cons] at hp
      rcases hp with h | h | h
      · right; rw [h]; simp
      · right; rw [h]; simp
      · exact Or.inl h
    · simp only [List.mem_cons] at hp
      rcases hp with h | h
      · right; rw [h]; simp
      · exact Or.inl h
  | .aliasedSubquery sub aliasName => simp [subqueryFree] at hs
  | .aliasedNone => simpa [getTableNames, tableRefs] using PlainStep.refl qi
  | .colName qualifier name =>
    simp only [unqualified, decide_eq_true_eq] at hu
    simp only [getTableNames, tableRefs, hu]
    refine ⟨by simp, rfl, ?_, fun _ h => Or.inl h⟩
    intro c hc
    rcases List.mem_append.1 hc with h | h
    · exact Or.inl h
    · right
      simp only [List.mem_singleton] at h
      rw [h]
  | .columns names =>
    simp only [getTableNames, tableRefs]
    exact ⟨by simp, rfl, appendColumns_mem q names qi.columns, fun _ h => Or.inl h⟩
  | .slice elems =>
    simp only [subqueryFree] at hs
    simp only [unqualified] at hu
    simp only [getTableNames, tableRefs]
    exact getTableNamesList_plain elems qi _ _ hs hu
  | .iface value =>
    simp only [subqueryFree] at hs
    simp only [unqualified] at hu
    simp only [getTableNames, tableRefs]
    exact getTableNames_plain value qi _ _ hs hu
  | .other => simpa [getTableNames, tableRefs] using PlainStep.refl qi
theorem getTableNamesList_plain (vs : List Node) (qi : QueryInfo) (level : Nat) (q : String)
    (hs : subqueryFreeList vs = true) (hu : unqualifiedList vs = true) :
    PlainStep (tableRefsList vs) qi (getTableNamesList vs qi level q) := by
  match vs with
  | [] => simpa [getTableNamesList, tableRefsList] using PlainStep.refl qi
  | v :: rest =>
    simp only [subqueryFreeList, Bool.and_eq_true] at hs
    simp only [unqualifiedList, Bool.and_eq_true] at hu
    simp only [getTableNamesList, tableRefsList]
    exact (getTableNames_plain v qi level q hs.1 hu.1).trans
      (getTableNamesList_plain rest _ level q hs.2 hu.2)
end

theorem mem_of_mapLookup {κ ν : Type} [DecidableEq κ] {k : κ} {v : ν} :
    ∀ {m : List (κ × ν)}, mapLookup k m = some v → (k, v) ∈ m := by
  intro m
  induction m with
  | nil => intro h; simp [mapLookup] at h
  | cons p rest ih =>
    intro h
    obtain ⟨k', v'⟩ := p
    simp only [mapLookup] at h
    split_ifs at h with hk
    · simp only [Option.some.injEq] at h
      rw [hk, h]
      exact List.mem_cons_self _ _
    · exact List.mem_cons_of_mem _ (ih h)

/-- C7: for every statement tree that holds exactly one table reference, to a table `t`
other than `"dual"` (with or without alias), no subquery, and only unqualified column
references and star expressions, every column of the result of `parseReflect` has the
table `t`; the result is the raw columns of the walk, each with the table `t`, sorted and
without duplicates. -/
theorem single_table_inference (v : Node) (t : String) (href : tableRefs v = [t])
    (ht : t ≠ "dual") (hs : subqueryFree v = true) (hu : unqualified v = true) :
    (∀ c ∈ parseReflect v, c.TableName = t) ∧
      parseReflect v =
        sortAndUnique ((getTableNames v NewQueryInfo 0 "NULL").columns.map
          (fun e => ⟨t, e.ColumnName, e.QueryType⟩)) := by
  have step := getTableNames_plain v NewQueryInfo 0 "NULL" hs hu
  have htab : (getTableNames v NewQueryInfo 0 "NULL").tables = [t] := by
    rw [step.tables, href]; rfl
  have hcolmap : (getTableNames v NewQueryInfo 0 "NULL").aliasColumnToColumnMapping = [] := by
    rw [step.aliasColumn]; rfl
  have hval : ∀ val, mapLookup t (getTableNames v NewQueryInfo 0 "NULL").aliasToTableMapping =
      some val → val = t := by
    intro val hl
    rcases step.aliases _ (mem_of_mapLookup hl) with h | h
    · simp [NewQueryInfo] at h
    · rw [href] at h
      simpa using h
  have hres : ∀ e ∈ (getTableNames v NewQueryInfo 0 "NULL").columns,
      resolveColumn (getTableNames v NewQueryInfo 0 "NULL") e =
        ⟨t, e.ColumnName, e.QueryType⟩ := by
    intro e he
    have hempty : e.TableName = "" := by
      rcases step.columns e he with h | h
      · simp [NewQueryInfo] at h
      · exact h
    simp only [resolveColumn, hempty, if_true, htab, fillTable, hcolmap, mapLookup]
    cases hl : mapLookup t (getTableNames v NewQueryInfo 0 "NULL").aliasToTableMapping with
    | none => rfl
    | some val => rw [hval val hl]
  constructor
  · intro c hc
    obtain ⟨e, he, rfl⟩ := postResolution_subset hc
    rw [hres e he]
  · have hd : (getTableNames v NewQueryInfo 0 "NULL").tables ≠ ["dual"] := by
      rw [htab]
      intro h
      exact ht (List.head_eq_of_cons_eq h)
    unfold parseReflect
    rw [postResolution_of_not_dual hd, List.map_congr_left hres]

theorem single_table_inference_witness :
    parseReflect stmtStar = [⟨"t", "*", "Select"⟩] ∧
      tableRefs stmtStar = ["t"] ∧ subqueryFree stmtStar = true ∧
      unqualified stmtStar = true ∧
      ((∀ c ∈ parseReflect stmtStar, c.TableName = "t") ∧
        parseReflect stmtStar =
          sortAndUnique ((getTableNames stmtStar NewQueryInfo 0 "NULL").columns.map
            (fun e => ⟨"t", e.ColumnName, e.QueryType⟩))) :=
  ⟨by decide, by decide, by decide, by decide,
    single_table_inference stmtStar "t" (by decide) (by decide) (by decide) (by decide)⟩

/-! ## Claim C8: empty table names in the result -/

theorem intercalate_go_data_ne_nil (s : String) (l : List String) :
    ∀ acc : String, acc.data ≠ [] → (String.intercalate.go acc s l).data ≠ [] := by
  induction l with
  | nil => intro acc h; simpa [String.intercalate.go] using h
  | cons a rest ih =>
    intro acc h
    simp only [String.intercalate.go]
    apply ih
    simp [String.data_append, h]

theorem fillTable_ne_empty {tables : List String} (h1 : tables ≠ []) (h2 : tables ≠ [""]) :
    fillTable tables ≠ "" := by
  match tables, h1, h2 with
  | [t], _, h2 =>
    intro h
    apply h2
    simp only [fillTable] at h
    rw [h]
  | a :: b :: rest, _, _ =>
    intro h
    have hne : (String.intercalate "," (a :: b :: rest)).data ≠ [] := by
      simp only [String.intercalate, String.intercalate.go]
      apply intercalate_go_data_ne_nil
      simp [String.data_append]
    apply hne
    have hf : fillTable (a :: b :: rest) = String.intercalate "," (a :: b :: rest) := rfl
    rw [← hf, h]

/-- C8, as stated, fails: in `select x from (select 1) as s` the subquery is discarded as
a `dual` scope, the outer scope has no table at all, and the unqualified column `x` is
returned with an empty table. -/
theorem empty_table_in_result :
    parseReflect stmtTablelessSubquery = [⟨"", "x", "Select"⟩] := by
  decide

/-- C8, amended: for every scope whose table list is neither empty nor the single empty
name and whose two alias maps bind no key to an empty table name, no column of the
result of the post-resolution pass has an empty table. -/
theorem resolved_table_nonempty (qi : QueryInfo) (h1 : qi.tables ≠ [])
    (h2 : qi.tables ≠ [""]) (hA : ∀ p ∈ qi.aliasToTableMapping, p.2 ≠ "")
    (hC : ∀ p ∈ qi.aliasColumnToColumnMapping, p.2.table ≠ "") :
    ∀ c ∈ postResolution qi, c.TableName ≠ "" := by
  intro c hc
  obtain ⟨e, _, rfl⟩ := postResolution_subset hc
  have ht1 : (if e.TableName = "" then fillTable qi.tables else e.TableName) ≠ "" := by
    split_ifs with h
    · exact fillTable_ne_empty h1 h2
    · exact h
  simp only [resolveColumn]
  generalize (if e.TableName = "" then fillTable qi.tables else e.TableName) = t1 at ht1
  have ht2 : (match mapLookup { table := t1, column := e.ColumnName }
      qi.aliasColumnToColumnMapping with
    | some value => value.table
    | none => t1) ≠ "" := by
    cases hl : mapLookup { table := t1, column := e.ColumnName }
      qi.aliasColumnToColumnMapping with
    | none => exact ht1
    | some value => exact hC _ (mem_of_mapLookup hl)
  generalize (match mapLookup { table := t1, column := e.ColumnName }
      qi.aliasColumnToColumnMapping with
    | some value => value.table
    | none => t1) = t2 at ht2
  cases hl : mapLookup t2 qi.aliasToTableMapping with
  | none => exact ht2
  | some value => exact hA _ (mem_of_mapLookup hl)

theorem resolved_table_nonempty_witness :
    (getTableNames stmtAliasedSubquery NewQueryInfo 0 "NULL").tables = ["b"] ∧
      ∀ c ∈ parseReflect stmtAliasedSubquery, c.TableName ≠ "" :=
  ⟨by decide,
    resolved_table_nonempty (getTableNames stmtAliasedSubquery NewQueryInfo 0 "NULL")
      (by decide) (by decide) (by decide) (by decide)⟩

/-! ## Claim C9: the numbering of a placeholder -/

theorem replaceNumbered_marker (skip : Bool) (rest : List Char) :
    replaceNumbered skip (':' :: '?' :: rest) = '?' :: replaceNumbered true rest := by
  simp [replaceNumbered]

theorem replaceNumbered_cons (skip : Bool) (c : Char) (rest : List Char)
    (h : ∀ rest', c = ':' → rest = '?' :: rest' → False) :
    replaceNumbered skip (c :: rest) =
      if skip && c.isDigit then replaceNumbered true rest
      else c :: replaceNumbered false rest := by
  rw [replaceNumbered]
  exact h

theorem replaceNumbered_digits (d b : List Char) (hd : ∀ c ∈ d, c.isDigit = true) :
    replaceNumbered true (d ++ b) = replaceNumbered true b := by
  induction d with
  | nil => rfl
  | cons c d ih =>
    have hc : c.isDigit = true := hd c (List.mem_cons_self _ _)
    have hne : c ≠ ':' := by
      intro h
      rw [h] at hc
      exact absurd hc (by decide)
    rw [List.cons_append, replaceNumbered_cons true c (d ++ b) (fun _ h _ => hne h)]
    simp only [hc, Bool.and_self, if_true]
    exact ih (fun x hx => hd x (List.mem_cons_of_mem _ hx))

theorem replaceNumbered_append_marker (r : List Char) :
    ∀ (n : Nat) (a : List Char), a.length ≤ n → ∀ skip : Bool,
      replaceNumbered skip (a ++ ':' :: '?' :: r) =
        replaceNumbered skip a ++ '?' :: replaceNumbered true r := by
  intro n
  induction n with
  | zero =>
    intro a ha skip
    have : a = [] := List.length_eq_zero.1 (Nat.le_zero.1 ha)
    subst this
    simp [replaceNumbered]
  | succ n ih =>
    intro a ha skip
    match a, ha with
    | [], _ => simp [replaceNumbered]
    | [c], _ =>
      have h1 : ∀ rest', c = ':' → ':' :: '?' :: r = '?' :: rest' → False := by
        intro rest' _ h
        simp at h
      have h2 : ∀ rest', c = ':' → ([] : List Char) = '?' :: rest' → False := by
        intro rest' _ h
        simp at h
      rw [List.singleton_append, replaceNumbered_cons skip c _ h1,
        replaceNumbered_cons skip c _ h2]
      have e1 := ih [] (Nat.zero_le _) true
      have e2 := ih [] (Nat.zero_le _) false
      simp only [List.nil_append] at e1 e2
      split_ifs
      · rw [e1]
      · rw [e2]; rfl
    | c :: x :: a', ha =>
      have hlen : a'.length ≤ n := by
        simp only [List.length_cons] at ha
        omega
      have hlen' : (x :: a').length ≤ n := by
        simp only [List.length_cons] at ha ⊢
        omega
      by_cases hm : c = ':' ∧ x = '?'
      · obtain ⟨rfl, rfl⟩ := hm
        simp only [List.cons_append]
        rw [replaceNumbered_marker, replaceNumbered_marker, ih a' hlen true]
        rfl
      · have h1 : ∀ rest', c = ':' → x :: (a' ++ ':' :: '?' :: r) = '?' :: rest' → False := by
          intro rest' hc h
          simp only [List.cons.injEq] at h
          exact hm ⟨hc, h.1⟩
        have h2 : ∀ rest', c = ':' → x :: a' = '?' :: rest' → False := by
          intro rest' hc h
          simp only [List.cons.injEq] at h
          exact hm ⟨hc, h.1⟩
        have e1 := ih (x :: a') hlen' true
        have e2 := ih (x :: a') hlen' false
        simp only [List.cons_append] at e1 e2 ⊢
        rw [replaceNumbered_cons skip c _ h1, replaceNumbered_cons skip c _ h2]
        split_ifs
        · rw [e1]
        · rw [e2]; rfl

theorem stripNumbering_marker (a d b : String) (hd : ∀ c ∈ d.data, c.isDigit = true) :
    stripNumbering (a ++ ":?" ++ d ++ b) =
      String.mk (replaceNumbered false a.data ++ '?' :: replaceNumbered true b.data) := by
  have hdata : (a ++ ":?" ++ d ++ b).data = a.data ++ ':' :: '?' :: (d.data ++ b.data) := by
    simp [String.data_append]
  unfold stripNumbering
  rw [hdata, replaceNumbered_append_marker _ a.data.length a.data (Nat.le_refl _) false,
    replaceNumbered_digits d.data b.data hd]

/-- C9: the placeholder post-processing of `redactSQLQuery` does not depend on the number
after a marker: for all strings `a` and `b` and all digit strings `d` and `e`, rewriting
`a ++ ":?" ++ d ++ b` gives the same text as rewriting `a ++ ":?" ++ e ++ b`; so two
statements whose rendered texts differ only in that number are redacted to the same
text, whatever the normalizer and the renderer are. -/
theorem redaction_numbering_independent {Stmt : Type} (normalize : Stmt → Stmt)
    (render : Stmt → String) (s1 s2 : Stmt) (a b d e : String)
    (hd : ∀ c ∈ d.data, c.isDigit = true) (he : ∀ c ∈ e.data, c.isDigit = true) :
    stripNumbering (a ++ ":?" ++ d ++ b) = stripNumbering (a ++ ":?" ++ e ++ b) ∧
      (render (normalize s1) = a ++ ":?" ++ d ++ b →
        render (normalize s2) = a ++ ":?" ++ e ++ b →
        redactSQLQuery normalize render s1 = redactSQLQuery normalize render s2) := by
  have h : stripNumbering (a ++ ":?" ++ d ++ b) = stripNumbering (a ++ ":?" ++ e ++ b) := by
    rw [stripNumbering_marker a d b hd, stripNumbering_marker a e b he]
  refine ⟨h, fun h1 h2 => ?_⟩
  unfold redactSQLQuery
  rw [h1, h2, h]

theorem redaction_numbering_independent_witness :
    stripNumbering "select * from t where id = :?1 and x = :?2" =
        "select * from t where id = ? and x = ?" ∧
      (stripNumbering ("select * from t where id = " ++ ":?" ++ "1" ++ " and x = :?2") =
          stripNumbering ("select * from t where id = " ++ ":?" ++ "27" ++ " and x = :?2") ∧
        (id (id "select * from t where id = :?1 and x = :?2") =
            "select * from t where id = " ++ ":?" ++ "1" ++ " and x = :?2" →
          id (id "select * from t where id = :?27 and x = :?2") =
            "select * from t where id = " ++ ":?" ++ "27" ++ " and x = :?2" →
          redactSQLQuery id id "select * from t where id = :?1 and x = :?2" =
            redactSQLQuery id id "select * from t where id = :?27 and x = :?2")) :=
  ⟨by decide,
    redaction_numbering_independent id id "select * from t where id = :?1 and x = :?2"
      "select * from t where id = :?27 and x = :?2" "select * from t where id = "
      " and x = :?2" "1" "27" (by decide) (by decide)⟩

/-! ## Claim C11: a failed parse -/

/-- C11: for every input on which the parser returns an error `e`, `RedactSQLQuery`
returns the empty string together with `e`, `parseQuery` returns no columns together with
`e`, and the response of `parseReturnJson` has the message of `e` as its error, no columns
and an empty redacted query; and whenever the parse succeeds the error field of the
response is empty and both functions return no error. -/
theorem parse_failure_no_payload {Stmt Err : Type} (p : Parser Stmt Err)
    (marshal : JsonResponse → String) (sql : String) :
    (∀ e, p.parse sql = .error e →
        RedactSQLQuery p sql = ("", some e) ∧ parseQuery p sql = ([], some e) ∧
          parseResponse p sql =
            { ColumnAccessPatterns := [], RedactedQuery := "", Error := p.message e } ∧
          parseReturnJson marshal p sql =
            marshal { ColumnAccessPatterns := [], RedactedQuery := "", Error := p.message e }) ∧
      (∀ stmt, p.parse sql = .ok stmt →
        (parseResponse p sql).Error = "" ∧ (RedactSQLQuery p sql).2 = none ∧
          (parseQuery p sql).2 = none) := by
  constructor
  · intro e he
    simp [RedactSQLQuery, parseQuery, parseResponse, parseReturnJson, he]
  · intro stmt hs
    simp [RedactSQLQuery, parseQuery, parseResponse, hs]

theorem parse_failure_no_payload_witness :
    toyParser.parse "select from" = .error "syntax error" ∧
      toyParser.parse "select 1" = .ok stmtSelectOne ∧
      RedactSQLQuery toyParser "select from" = ("", some "syntax error") ∧
      parseQuery toyParser "select from" = ([], some "syntax error") ∧
      parseResponse toyParser "select from" =
        { ColumnAccessPatterns := [], RedactedQuery := "", Error := "syntax error" } ∧
      parseResponse toyParser "select 1" =
        { ColumnAccessPatterns := [], RedactedQuery := "select ? from dual", Error := "" } :=
  ⟨rfl, rfl,
    ((parse_failure_no_payload toyParser (fun r => r.Error) "select from").1 "syntax error"
      rfl).1,
    ((parse_failure_no_payload toyParser (fun r => r.Error) "select from").1 "syntax error"
      rfl).2.1,
    ((parse_failure_no_payload toyParser (fun r => r.Error) "select from").1 "syntax error"
      rfl).2.2.1,
    by decide⟩

/-! ## Claims C13, C14 and C19: what one step of the walk changes -/

theorem foldl_mergeColumn_columns (aliasName : String) (R : List ColumnAccess) :
    ∀ qi : QueryInfo, (R.foldl (mergeColumn aliasName) qi).columns = qi.columns := by
  induction R with
  | nil => intro qi; rfl
  | cons e R ih =>
    intro qi
    rw [List.foldl_cons, ih]
    unfold mergeColumn
    split_ifs <;> rfl

theorem foldl_mergeColumn_aliasToTable (aliasName : String) (R : List ColumnAccess) :
    ∀ qi : QueryInfo,
      (R.foldl (mergeColumn aliasName) qi).aliasToTableMapping = qi.aliasToTableMapping := by
  induction R with
  | nil => intro qi; rfl
  | cons e R ih =>
    intro qi
    rw [List.foldl_cons, ih]
    unfold mergeColumn
    split_ifs <;> rfl

theorem foldl_mergeColumn_aliasColumn_empty (R : List ColumnAccess) :
    ∀ qi : QueryInfo,
      (R.foldl (mergeColumn "") qi).aliasColumnToColumnMapping =
        qi.aliasColumnToColumnMapping := by
  induction R with
  | nil => intro qi; rfl
  | cons e R ih =>
    intro qi
    rw [List.foldl_cons, ih]
    unfold mergeColumn
    split_ifs <;> first | rfl | simp_all

theorem stringInSlice_iff (a : String) (l : List String) :
    stringInSlice a l = true ↔ a ∈ l := by
  induction l with
  | nil => simp [stringInSlice]
  | cons b rest ih =>
    simp only [stringInSlice, List.mem_cons]
    split_ifs with h
    · simp [h]
    · rw [ih]
      constructor
      · exact Or.inr
      · rintro (h' | h')
        · exact absurd h'.symm h
        · exact h'

theorem distinctNames_filter (p : String → Bool) (l : List String) :
    distinctNames (l.filter p) = (distinctNames l).filter p := by
  induction l with
  | nil => rfl
  | cons a rest ih =>
    cases hp : p a with
    | true =>
      simp only [List.filter_cons, hp, if_true, distinctNames, ih, List.filter_filter]
      congr 1
      apply List.filter_congr
      intro x _
      exact Bool.and_comm _ _
    | false =>
      simp only [List.filter_cons, hp, distinctNames, ih, List.filter_filter]
      simp only [Bool.false_eq_true, if_false]
      rw [ih]
      apply List.filter_congr
      intro x _
      cases hx : p x with
      | true =>
        have hxa : x ≠ a := fun h => by rw [h, hp] at hx; exact absurd hx (by decide)
        simp [hxa]
      | false => simp

theorem foldl_mergeColumn_tables (aliasName : String) (R : List ColumnAccess) :
    ∀ qi : QueryInfo,
      (R.foldl (mergeColumn aliasName) qi).tables =
        qi.tables ++
          distinctNames ((R.map (fun c => c.TableName)).filter
            (fun t => !stringInSlice t qi.tables)) := by
  induction R with
  | nil => intro qi; simp [distinctNames]
  | cons e R ih =>
    intro qi
    rw [List.foldl_cons, ih]
    have htab : (mergeColumn aliasName qi e).tables =
        if stringInSlice e.TableName qi.tables then qi.tables
        else qi.tables ++ [e.TableName] := by
      unfold mergeColumn
      split_ifs <;> rfl
    rw [htab]
    cases hin : stringInSlice e.TableName qi.tables with
    | true => simp [List.filter_cons, hin]
    | false =>
      simp only [Bool.false_eq_true, if_false, List.map_cons, List.filter_cons, hin,
        Bool.not_false, if_true, distinctNames, List.append_assoc, List.singleton_append]
      congr 2
      rw [← distinctNames_filter, List.filter_filter]
      congr 1
      apply List.filter_congr
      intro x _
      have h1 : stringInSlice x (qi.tables ++ [e.TableName]) =
          (stringInSlice x qi.tables || decide (x = e.TableName)) := by
        rw [Bool.eq_iff_iff]
        simp [stringInSlice_iff]
      rw [h1]
      by_cases hx : x = e.TableName <;> simp [hx]

/-- C13: for every `Subquery` node met at a level other than 0 and every two statement
types of the enclosing scope, walking the node under the one and under the other from
the same parent scope yields the same scope, the parent scope with the result of
`parseReflect` on the node merged in; that result comes from a walk that starts from a
fresh scope and the type `"NULL"`.  The same holds for an aliased subquery at any
level. -/
theorem statement_type_stops_at_subquery (fields : List Node) (sub : Node)
    (aliasName : String) (qi : QueryInfo) (level level' : Nat) (q1 q2 : String)
    (hlevel : level ≠ 0) :
    getTableNames (.struct "Subquery" fields) qi level q1 =
        getTableNames (.struct "Subquery" fields) qi level q2 ∧
      getTableNames (.struct "Subquery" fields) qi level q1 =
        traverseSubquery (parseReflect (.struct "Subquery" fields)) qi "" ∧
      parseReflect (.struct "Subquery" fields) =
        postResolution (getTableNames (.struct "Subquery" fields) NewQueryInfo 0 "NULL") ∧
      getTableNames (.aliasedSubquery sub aliasName) qi level' q1 =
        getTableNames (.aliasedSubquery sub aliasName) qi level' q2 ∧
      getTableNames (.aliasedSubquery sub aliasName) qi level' q1 =
        traverseSubquery (parseReflect sub) qi aliasName := by
  obtain ⟨n, rfl⟩ := Nat.exists_eq_succ_of_ne_zero hlevel
  refine ⟨?_, getTableNames_subquery fields qi n q1, rfl, ?_,
    getTableNames_aliasedSubquery sub aliasName qi level' q1⟩
  · rw [getTableNames_subquery, getTableNames_subquery]
  · rw [getTableNames_aliasedSubquery, getTableNames_aliasedSubquery]

theorem statement_type_stops_at_subquery_witness :
    (getTableNames (subqueryNode stmtInner) NewQueryInfo 3 "Update").columns =
        [⟨"b", "y", "Select"⟩] ∧
      (getTableNames (.struct "Subquery" [.iface stmtInner]) NewQueryInfo 3 "Update" =
          getTableNames (.struct "Subquery" [.iface stmtInner]) NewQueryInfo 3 "Delete" ∧
        getTableNames (.struct "Subquery" [.iface stmtInner]) NewQueryInfo 3 "Update" =
          traverseSubquery (parseReflect (.struct "Subquery" [.iface stmtInner]))
            NewQueryInfo "" ∧
        parseReflect (.struct "Subquery" [.iface stmtInner]) =
          postResolution
            (getTableNames (.struct "Subquery" [.iface stmtInner]) NewQueryInfo 0 "NULL") ∧
        getTableNames (.aliasedSubquery (subqueryNode stmtInner) "s") NewQueryInfo 0 "Update" =
          getTableNames (.aliasedSubquery (subqueryNode stmtInner) "s") NewQueryInfo 0
            "Delete" ∧
        getTableNames (.aliasedSubquery (subqueryNode stmtInner) "s") NewQueryInfo 0 "Update" =
          traverseSubquery (parseReflect (subqueryNode stmtInner)) NewQueryInfo "s") :=
  ⟨by decide,
    statement_type_stops_at_subquery [.iface stmtInner] (subqueryNode stmtInner) "s"
      NewQueryInfo 3 0 "Update" "Delete" (by decide)⟩

/-- C14: for every parent scope `P`, result `R` of a subquery and external alias,
`traverseSubquery` leaves `P.columns ++ R` as the columns of the parent; the new table
list is `P.tables` followed by exactly the tables of `R` that were not in `P.tables`,
each once, in the order of their first occurrence in `R`; `aliasToTableMapping` is
unchanged; and `aliasColumnToColumnMapping` is unchanged when the alias is empty. -/
theorem traverseSubquery_frame (P : QueryInfo) (R : List ColumnAccess) (aliasName : String) :
    (traverseSubquery R P aliasName).columns = P.columns ++ R ∧
      (traverseSubquery R P aliasName).tables =
        P.tables ++
          distinctNames ((R.map (fun c => c.TableName)).filter
            (fun t => !stringInSlice t P.tables)) ∧
      (traverseSubquery R P aliasName).aliasToTableMapping = P.aliasToTableMapping ∧
      (traverseSubquery R P "").aliasColumnToColumnMapping = P.aliasColumnToColumnMapping := by
  unfold traverseSubquery
  refine ⟨?_, ?_, ?_, ?_⟩
  · rw [foldl_mergeColumn_columns]
  · rw [foldl_mergeColumn_tables]
  · rw [foldl_mergeColumn_aliasToTable]
  · rw [foldl_mergeColumn_aliasColumn_empty]

theorem appendColumns_eq (q : String) (names : List String) :
    ∀ cols : List ColumnAccess,
      appendColumns q cols names =
        cols ++ (names.filter (fun n => n ≠ "")).map
          (fun n => { TableName := "", ColumnName := n, QueryType := q }) := by
  induction names with
  | nil => intro cols; simp [appendColumns]
  | cons n rest ih =>
    intro cols
    unfold appendColumns
    split_ifs with h
    · rw [ih]
      simp [h]
    · rw [ih]
      simp [h]

/-- C19: walking a `Columns` list under the statement type `q` appends to the columns of
the scope exactly one entry `("", name, q)` for each identifier of the list whose name
is not empty, in list order, skips every identifier whose name is empty, and leaves the
table list and both alias maps unchanged. -/
theorem columns_list_walk (names : List String) (qi : QueryInfo) (level : Nat) (q : String) :
    getTableNames (.columns names) qi level q =
      { tables := qi.tables
        aliasToTableMapping := qi.aliasToTableMapping
        aliasColumnToColumnMapping := qi.aliasColumnToColumnMapping
        columns := qi.columns ++ (names.filter (fun n => n ≠ "")).map
          (fun n => { TableName := "", ColumnName := n, QueryType := q }) } := by
  simp only [getTableNames, appendColumns_eq]

/-! ## Claim C12: the statement type of the columns of a scope -/

theorem traverseSubquery_columns (R : List ColumnAccess) (qi : QueryInfo)
    (aliasName : String) : (traverseSubquery R qi aliasName).columns = qi.columns ++ R := by
  unfold traverseSubquery
  rw [foldl_mergeColumn_columns]

/-- C12, as stated, fails: in `insert into t (a) select x from u` the `Select` is a
statement root inside the scope of the `Insert`, no subquery is merged in, and the walk
of the one scope emits the column `a` with the type `Insert` and the column `x` with the
type `Select`. -/
theorem statement_type_changes_at_nested_root :
    mergedColumns stmtInsertSelect 0 = [] ∧
      (getTableNames stmtInsertSelect NewQueryInfo 0 "NULL").columns =
        [⟨"", "a", "Insert"⟩, ⟨"", "x", "Select"⟩] ∧
      parseReflect stmtInsertSelect = [⟨"t,u", "a", "Insert"⟩, ⟨"t,u", "x", "Select"⟩] := by
  decide

/-! ## Claim C17: the lookup of the alias remap -/

theorem traverseSubquery_aliasToTable (R : List ColumnAccess) (qi : QueryInfo)
    (aliasName : String) :
    (traverseSubquery R qi aliasName).aliasToTableMapping = qi.aliasToTableMapping := by
  unfold traverseSubquery
  rw [foldl_mergeColumn_aliasToTable]

/-- C17: the code at `select x from t as a`.  The walk stores the identity entry only for
a reference without alias, so the alias map holds `a` alone; the unqualified column `x`
is filled with the table `t`, no alias-column entry remaps it, and the lookup of `t` in
the alias map, which the claim and the comment at the lookup expect to succeed, finds
nothing. -/
theorem alias_lookup_misses :
    (getTableNames stmtAliasedTable NewQueryInfo 0 "NULL").columns = [⟨"", "x", "Select"⟩] ∧
      (getTableNames stmtAliasedTable NewQueryInfo 0 "NULL").aliasToTableMapping =
        [("a", "t")] ∧
      tableAfterColumnRemap (getTableNames stmtAliasedTable NewQueryInfo 0 "NULL")
        ⟨"", "x", "Select"⟩ = "t" ∧
      mapLookup (tableAfterColumnRemap (getTableNames stmtAliasedTable NewQueryInfo 0 "NULL")
        ⟨"", "x", "Select"⟩)
        (getTableNames stmtAliasedTable NewQueryInfo 0 "NULL").aliasToTableMapping = none := by
  decide

/-! ## Claim C15: the recursion of the source ends -/

theorem traverseSubquerySrc_eq (v : Node) (qi : QueryInfo) (aliasName : String) :
    traverseSubquerySrc v qi aliasName = traverseSubquery (parseReflectSrc v) qi aliasName := by
  rw [traverseSubquerySrc]

theorem parseReflectSrc_eq (v : Node) :
    parseReflectSrc v = postResolution (getTableNamesSrc v NewQueryInfo 0 "NULL") := by
  rw [parseReflectSrc]

theorem getTableNamesSrc_struct (typeName : String) (fields : List Node) (qi : QueryInfo)
    (level : Nat) (q : String) :
    getTableNamesSrc (.struct typeName fields) qi level q =
      if typeName = "Subquery" ∧ level ≠ 0 then
        traverseSubquerySrc (.struct typeName fields) qi ""
      else getTableNamesListSrc fields qi (level + 1) (fieldQueryType typeName q) := by
  rw [getTableNamesSrc]

mutual
theorem getTableNamesSrc_eq (v : Node) (qi : QueryInfo) (level : Nat) (q : String) :
    getTableNamesSrc v qi level q = getTableNames v qi level q := by
  match v with
  | .struct typeName fields =>
    rw [getTableNamesSrc_struct, getTableNames]
    by_cases hsub : typeName = "Subquery" ∧ level ≠ 0
    · rw [if_pos hsub, if_pos hsub, traverseSubquerySrc_eq, parseReflectSrc_eq,
        getTableNamesSrc_struct, if_neg (by simp), getTableNamesListSrc_eq]
    · rw [if_neg hsub, if_neg hsub, getTableNamesListSrc_eq]
  | .starExpr tableName => rw [getTableNamesSrc, getTableNames]
  | .tableName name qualifier => rw [getTableNamesSrc, getTableNames]
  | .aliasedTable name aliasName => rw [getTableNamesSrc, getTableNames]
  | .aliasedSubquery sub aliasName =>
    rw [getTableNamesSrc, getTableNames, traverseSubquerySrc_eq, parseReflectSrc_eq,
      getTableNamesSrc_eq sub]
  | .aliasedNone => rw [getTableNamesSrc, getTableNames]
  | .colName qualifier name => rw [getTableNamesSrc, getTableNames]
  | .columns names => rw [getTableNamesSrc, getTableNames]
  | .slice elems => rw [getTableNamesSrc, getTableNames, getTableNamesListSrc_eq]
  | .iface value => rw [getTableNamesSrc, getTableNames, getTableNamesSrc_eq value]
  | .other => rw [getTableNamesSrc, getTableNames]
theorem getTableNamesListSrc_eq (vs : List Node) (qi : QueryInfo) (level : Nat) (q : String) :
    getTableNamesListSrc vs qi level q = getTableNamesList vs qi level q := by
  match vs with
  | [] => rw [getTableNamesListSrc, getTableNamesList]
  | v :: rest =>
    rw [getTableNamesListSrc, getTableNamesList, getTableNamesSrc_eq v,
      getTableNamesListSrc_eq rest]
end

/-- C15: the walk with the recursion of the source is a total function: it is defined by
well-founded recursion on a measure of the tree that every call lowers.  A `Subquery`
struct met at a level other than 0 goes to `traverseSubquery`, that to `parseReflect`,
that to `getTableNames` on the same struct at level 0, where the guard fails and the
walk goes into the fields; each of these calls is smaller than the one before, and a
walk of the children is smaller than the walk of their parent at any level.  The total
function is the structurally recursive `getTableNames` of this development. -/
theorem walk_terminates (v : Node) (typeName : String) (fields rest : List Node)
    (qi : QueryInfo) (level : Nat) (q aliasName : String) :
    getTableNamesSrc v qi level q = getTableNames v qi level q ∧
      parseReflectSrc v = parseReflect v ∧
      getTableNamesSrc (.struct "Subquery" fields) qi (level + 1) q =
        traverseSubquerySrc (.struct "Subquery" fields) qi "" ∧
      traverseSubquerySrc v qi aliasName = traverseSubquery (parseReflectSrc v) qi aliasName ∧
      parseReflectSrc v = postResolution (getTableNamesSrc v NewQueryInfo 0 "NULL") ∧
      getTableNamesSrc (.struct "Subquery" fields) NewQueryInfo 0 "NULL" =
        getTableNamesListSrc fields NewQueryInfo 1 "NULL" ∧
      traverseSubqueryMeasure v < getTableNamesMeasure v (level + 1) ∧
      parseReflectMeasure v < traverseSubqueryMeasure v ∧
      getTableNamesMeasure v 0 < parseReflectMeasure v ∧
      loopMeasure fields < getTableNamesMeasure (.struct typeName fields) level ∧
      loopMeasure fields < getTableNamesMeasure (.slice fields) level ∧
      getTableNamesMeasure v (level + 1) < getTableNamesMeasure (.iface v) level ∧
      traverseSubqueryMeasure v < getTableNamesMeasure (.aliasedSubquery v aliasName) level ∧
      getTableNamesMeasure v level < loopMeasure (v :: rest) ∧
      loopMeasure rest < loopMeasure (v :: rest) := by
  refine ⟨getTableNamesSrc_eq v qi level q, ?_, ?_, traverseSubquerySrc_eq v qi aliasName,
    parseReflectSrc_eq v, ?_, ?_, ?_, ?_, ?_, ?_, ?_, ?_, ?_, ?_⟩
  · rw [parseReflectSrc_eq, getTableNamesSrc_eq]
    rfl
  · rw [getTableNamesSrc_struct, if_pos ⟨rfl, Nat.succ_ne_zero level⟩]
  · rw [getTableNamesSrc_struct, if_neg (by simp)]
    rfl
  all_goals
    simp only [getTableNamesMeasure, traverseSubqueryMeasure, parseReflectMeasure, loopMeasure,
      nodeSize, nodeSizeList]
    try split_ifs
    all_goals first | omega | contradiction

/-! ## Claim C18: the order of the raw columns -/

/-- C18: for every two raw column sequences that are permutations of each other and in
which no table or column name holds the character `':'`, `sortAndUnique` returns the same
sequence; the same holds for every other sequence with the same triples, so the result
depends only on the set of the triples. -/
theorem sortAndUnique_order_independent (l1 l2 : List ColumnAccess) (hperm : l1.Perm l2)
    (hfree : ∀ c ∈ l1, colonFree c) :
    sortAndUnique l1 = sortAndUnique l2 ∧
      ∀ l3 : List ColumnAccess, (∀ c, c ∈ l1 ↔ c ∈ l3) →
        sortAndUnique l1 = sortAndUnique l3 := by
  have key : ∀ l3 : List ColumnAccess, (∀ c, c ∈ l1 ↔ c ∈ l3) →
      sortAndUnique l1 = sortAndUnique l3 := by
    intro l3 hset
    have hfree3 : ∀ c ∈ l3, colonFree c := fun c hc => hfree c ((hset c).2 hc)
    have hmem : ∀ c, c ∈ sortAndUnique l1 ↔ c ∈ sortAndUnique l3 := by
      intro c
      constructor
      · intro hc
        exact sortAndUnique_keeps l3 hfree3 ((hset c).1 (uniqueSlice_subset l1 c hc))
      · intro hc
        exact sortAndUnique_keeps l1 hfree ((hset c).2 (uniqueSlice_subset l3 c hc))
    have hp : (sortAndUnique l1).Perm (sortAndUnique l3) :=
      (List.perm_ext_iff_of_nodup (pairwise_less_nodup (sortAndUnique_pairwise l1))
        (pairwise_less_nodup (sortAndUnique_pairwise l3))).2 hmem
    haveI : IsAntisymm ColumnAccess (fun a b => less a b = true) :=
      ⟨fun a b hab hba => by
        have := stringLess_asymm hab
        unfold less at hba
        rw [this] at hba
        exact absurd hba (by decide)⟩
    exact List.eq_of_perm_of_sorted hp (sortAndUnique_pairwise l1) (sortAndUnique_pairwise l3)
  exact ⟨key l2 (fun c => hperm.mem_iff), key⟩

theorem sortAndUnique_order_independent_witness :
    sortAndUnique [⟨"t", "x", "Select"⟩, ⟨"b", "y", "Select"⟩, ⟨"t", "x", "Select"⟩] =
        [⟨"b", "y", "Select"⟩, ⟨"t", "x", "Select"⟩] ∧
      (sortAndUnique [⟨"t", "x", "Select"⟩, ⟨"b", "y", "Select"⟩, ⟨"t", "x", "Select"⟩] =
          sortAndUnique [⟨"b", "y", "Select"⟩, ⟨"t", "x", "Select"⟩, ⟨"t", "x", "Select"⟩] ∧
        ∀ l3 : List ColumnAccess,
          (∀ c, c ∈ [(⟨"t", "x", "Select"⟩ : ColumnAccess), ⟨"b", "y", "Select"⟩,
              ⟨"t", "x", "Select"⟩] ↔ c ∈ l3) →
            sortAndUnique [⟨"t", "x", "Select"⟩, ⟨"b", "y", "Select"⟩, ⟨"t", "x", "Select"⟩] =
              sortAndUnique l3) :=
  ⟨by decide,
    sortAndUnique_order_independent _ _
      ((List.Perm.swap _ _ _).trans (List.Perm.cons _ (List.Perm.swap _ _ _)))
      (by decide)⟩

/-! ## Claim C16: the placeholder stripping and its reference definition -/

theorem replaceNumbered_no_marker (a : List Char) :
    ∀ skip : Bool, hasMarker a = false → (skip = false ∨ startsWithDigit a = false) →
      replaceNumbered skip a = a := by
  induction a with
  | nil => intro skip _ _; simp [replaceNumbered]
  | cons c r ih =>
    intro skip hm hs
    simp only [hasMarker, Bool.or_eq_false_iff] at hm
    have hside : ∀ rest', c = ':' → r = '?' :: rest' → False := by
      intro rest' hc hr
      have := hm.1
      rw [hc, hr] at this
      simp at this
    rw [replaceNumbered_cons skip c r hside]
    have hcond : (skip && c.isDigit) = false := by
      rcases hs with hs | hs
      · rw [hs]; rfl
      · simp only [startsWithDigit] at hs
        rw [hs]; simp
    rw [hcond]
    simp only [Bool.false_eq_true, if_false]
    rw [ih false hm.2 (Or.inl rfl)]

theorem markedTail_data_cons (d s : String) (rest : List (String × String)) :
    (markedTail ((d, s) :: rest)).data =
      ':' :: '?' :: (d.data ++ (s.data ++ (markedTail rest).data)) := by
  simp [markedTail, String.data_append]

theorem strippedTail_data_cons (d s : String) (rest : List (String × String)) :
    (strippedTail ((d, s) :: rest)).data = '?' :: (s.data ++ (strippedTail rest).data) := by
  simp [strippedTail, String.data_append]

theorem replaceNumbered_segments (segments : List (String × String)) :
    ∀ (s : List Char) (skip : Bool), hasMarker s = false →
      (skip = false ∨ startsWithDigit s = false) →
      (∀ p ∈ segments, (∀ c ∈ p.1.data, c.isDigit = true) ∧ hasMarker p.2.data = false ∧
        startsWithDigit p.2.data = false) →
      replaceNumbered skip (s ++ (markedTail segments).data) =
        s ++ (strippedTail segments).data := by
  induction segments with
  | nil =>
    intro s skip hm hs _
    have e1 : (markedTail []).data = [] := rfl
    have e2 : (strippedTail []).data = [] := rfl
    rw [e1, e2, List.append_nil]
    exact replaceNumbered_no_marker s skip hm hs
  | cons p rest ih =>
    intro s skip hm hs hseg
    obtain ⟨d, s'⟩ := p
    have hp := hseg (d, s') (List.mem_cons_self _ _)
    rw [markedTail_data_cons, strippedTail_data_cons,
      replaceNumbered_append_marker _ s.length s (Nat.le_refl _) skip,
      replaceNumbered_no_marker s skip hm hs, replaceNumbered_digits d.data _ hp.1,
      ih s'.data true hp.2.1 (Or.inr hp.2.2)
        (fun p' hp' => hseg p' (List.mem_cons_of_mem _ hp'))]

theorem hasNumberedMarker_no_marker (a : List Char) (hm : hasMarker a = false) :
    hasNumberedMarker a = false := by
  induction a with
  | nil => rfl
  | cons c r ih =>
    simp only [hasMarker, Bool.or_eq_false_iff] at hm
    simp only [hasNumberedMarker, Bool.or_eq_false_iff]
    refine ⟨?_, ih hm.2⟩
    have h1 := hm.1
    match r, h1 with
    | [], _ => simp
    | [x], h1 =>
      simp
    | x :: y :: r', h1 =>
      by_cases hx : x = '?'
      · subst hx
        simp only [List.head?_cons, beq_self_eq_true, Bool.and_true] at h1
        simp [h1]
      · simp [hx]

theorem hasNumberedMarker_append (a t : List Char) (hm : hasMarker a = false)
    (hd : startsWithDigit t = false) (ht : hasNumberedMarker t = false) :
    hasNumberedMarker (a ++ '?' :: t) = false := by
  induction a with
  | nil =>
    simp only [List.nil_append, hasNumberedMarker, ht, Bool.or_false]
    simp
  | cons c r ih =>
    simp only [hasMarker, Bool.or_eq_false_iff] at hm
    simp only [List.cons_append, hasNumberedMarker, Bool.or_eq_false_iff]
    refine ⟨?_, ih hm.2⟩
    have h1 := hm.1
    match r, h1 with
    | [], _ =>
      match t, hd with
      | [], _ => simp
      | y :: t', hd =>
        simp only [startsWithDigit] at hd
        simp [hd]
    | x :: r', h1 =>
      by_cases hx : x = '?'
      · subst hx
        simp only [List.head?_cons, beq_self_eq_true, Bool.and_true] at h1
        simp [h1]
      · match r' with
        | [] => simp [hx]
        | y :: r'' => simp [hx]

theorem startsWithDigit_strippedTail (segments : List (String × String)) :
    startsWithDigit (strippedTail segments).data = false := by
  match segments with
  | [] => rfl
  | (d, s) :: rest =>
    rw [strippedTail_data_cons]
    rfl

theorem startsWithDigit_append (a b : List Char) (ha : startsWithDigit a = false)
    (hb : startsWithDigit b = false) : startsWithDigit (a ++ b) = false := by
  match a, ha with
  | [], _ => exact hb
  | c :: r, ha => exact ha

theorem hasNumberedMarker_segments (segments : List (String × String)) :
    ∀ s : List Char, hasMarker s = false →
      (∀ p ∈ segments, (∀ c ∈ p.1.data, c.isDigit = true) ∧ hasMarker p.2.data = false ∧
        startsWithDigit p.2.data = false) →
      hasNumberedMarker (s ++ (strippedTail segments).data) = false := by
  induction segments with
  | nil =>
    intro s hm _
    have e2 : (strippedTail []).data = [] := rfl
    rw [e2, List.append_nil]
    exact hasNumberedMarker_no_marker s hm
  | cons p rest ih =>
    intro s hm hseg
    obtain ⟨d, s'⟩ := p
    have hp := hseg (d, s') (List.mem_cons_self _ _)
    rw [strippedTail_data_cons]
    apply hasNumberedMarker_append s _ hm
    · exact startsWithDigit_append _ _ hp.2.2 (startsWithDigit_strippedTail rest)
    · exact ih s'.data hp.2.1 (fun p' hp' => hseg p' (List.mem_cons_of_mem _ hp'))

/-- C16: for every rendered text `s0 ++ ":?" ++ d1 ++ s1 ++ ... ++ ":?" ++ dn ++ sn` in
which each `di` is a (possibly empty) digit string, no `si` holds `:?` and no `si` with
`i ≥ 1` starts with a digit, the post-processing of `redactSQLQuery` returns
`s0 ++ "?" ++ s1 ++ ... ++ "?" ++ sn`; a text without `:?` is returned unchanged, and the
result holds no `:?` with a digit after it. -/
theorem stripNumbering_reference (s0 : String) (segments : List (String × String))
    (h0 : hasMarker s0.data = false)
    (hseg : ∀ p ∈ segments, (∀ c ∈ p.1.data, c.isDigit = true) ∧
      hasMarker p.2.data = false ∧ startsWithDigit p.2.data = false) :
    stripNumbering (markedText s0 segments) = strippedText s0 segments ∧
      stripNumbering s0 = s0 ∧
      hasNumberedMarker (stripNumbering (markedText s0 segments)).data = false := by
  have h1 : stripNumbering (markedText s0 segments) = strippedText s0 segments := by
    apply String.ext
    simp only [stripNumbering, markedText, strippedText, String.data_append]
    exact replaceNumbered_segments segments s0.data false h0 (Or.inl rfl) hseg
  refine ⟨h1, ?_, ?_⟩
  · apply String.ext
    simp only [stripNumbering]
    exact replaceNumbered_no_marker s0.data false h0 (Or.inl rfl)
  · rw [h1]
    simp only [strippedText, String.data_append]
    exact hasNumberedMarker_segments segments s0.data h0 hseg

theorem stripNumbering_reference_witness :
    markedText "select * from t where id = " [("1", " and x = "), ("23", ""), ("", " limit 5")] =
        "select * from t where id = :?1 and x = :?23:? limit 5" ∧
      strippedText "select * from t where id = "
          [("1", " and x = "), ("23", ""), ("", " limit 5")] =
        "select * from t where id = ? and x = ?? limit 5" ∧
      (stripNumbering
          (markedText "select * from t where id = "
            [("1", " and x = "), ("23", ""), ("", " limit 5")]) =
          strippedText "select * from t where id = "
            [("1", " and x = "), ("23", ""), ("", " limit 5")] ∧
        stripNumbering "select * from t where id = " = "select * from t where id = " ∧
        hasNumberedMarker
          (stripNumbering
            (markedText "select * from t where id = "
              [("1", " and x = "), ("23", ""), ("", " limit 5")])).data = false) :=
  ⟨by decide, by decide,
    stripNumbering_reference "select * from t where id = "
      [("1", " and x = "), ("23", ""), ("", " limit 5")] (by decide) (by decide)⟩

/-! ## Claim C12: the statement type of a column is that of its nearest statement root -/

mutual
theorem getTableNames_emitted (v : Node) (qi : QueryInfo) (level : Nat) (path : List String)
    (q0 : String) :
    (getTableNames v qi level (typeOfPath path q0)).columns =
      qi.columns ++ scopeEmitted v level path q0 := by
  match v with
  | .struct typeName fields =>
    by_cases hsub : typeName = "Subquery" ∧ level ≠ 0
    · rw [scopeEmitted, if_pos hsub]
      obtain ⟨rfl, hl⟩ := hsub
      obtain ⟨n, rfl⟩ := Nat.exists_eq_succ_of_ne_zero hl
      rw [getTableNames_subquery, traverseSubquery_columns]
    · rw [getTableNames, if_neg hsub, scopeEmitted, if_neg hsub]
      have hq : fieldQueryType typeName (typeOfPath path q0) =
          typeOfPath (typeName :: path) q0 := rfl
      rw [hq]
      exact getTableNamesList_emitted fields qi (level + 1) (typeName :: path) q0
  | .starExpr tableName => simp only [getTableNames, scopeEmitted]
  | .tableName name qualifier => simp only [getTableNames, scopeEmitted, List.append_nil]
  | .aliasedTable name aliasName => simp only [getTableNames, scopeEmitted, List.append_nil]
  | .aliasedSubquery sub aliasName =>
    rw [getTableNames_aliasedSubquery, traverseSubquery_columns, scopeEmitted]
  | .aliasedNone => simp only [getTableNames, scopeEmitted, List.append_nil]
  | .colName qualifier name => simp only [getTableNames, scopeEmitted]
  | .columns names => simp only [getTableNames, scopeEmitted, appendColumns_eq]
  | .slice elems =>
    simp only [getTableNames, scopeEmitted]
    exact getTableNamesList_emitted elems qi (level + 1) path q0
  | .iface value =>
    simp only [getTableNames, scopeEmitted]
    exact getTableNames_emitted value qi (level + 1) path q0
  | .other => simp only [getTableNames, scopeEmitted, List.append_nil]
theorem getTableNamesList_emitted (vs : List Node) (qi : QueryInfo) (level : Nat)
    (path : List String) (q0 : String) :
    (getTableNamesList vs qi level (typeOfPath path q0)).columns =
      qi.columns ++ scopeEmittedList vs level path q0 := by
  match vs with
  | [] => simp only [getTableNamesList, scopeEmittedList, List.append_nil]
  | v :: rest =>
    simp only [getTableNamesList, scopeEmittedList]
    rw [getTableNamesList_emitted rest, getTableNames_emitted v, List.append_assoc]
end

/-- C12, amended: every column that the walk of one scope emits itself (not merged in
from a nested subquery) carries the kind of the nearest statement-root node (`Select`,
`Update`, `Insert`, `Delete`, `Create`, `Drop`) that encloses it in that scope, and the
type the walk was entered with when no statement root encloses it: the columns of the
resulting scope are those of the entry scope followed by `scopeEmitted`, which types
every reference by `typeOfPath` of the structs above it; a statement root sets the type
for what lies below it whatever the type above is, any other struct passes it on. -/
theorem statement_type_nearest_root (v : Node) (qi : QueryInfo) (level : Nat)
    (q kind other : String) (path : List String)
    (hkind : stringInSlice kind statementKinds = true)
    (hother : stringInSlice other statementKinds = false) :
    (getTableNames v qi level q).columns = qi.columns ++ scopeEmitted v level [] q ∧
      typeOfPath (kind :: path) q = kind ∧
      typeOfPath (other :: path) q = typeOfPath path q := by
  refine ⟨getTableNames_emitted v qi level [] q, ?_, ?_⟩
  · simp only [typeOfPath, hkind, if_true]
  · simp only [typeOfPath, hother, Bool.false_eq_true, if_false]

theorem statement_type_nearest_root_witness :
    scopeEmitted stmtInsertSelect 0 [] "NULL" =
        [⟨"", "a", "Insert"⟩, ⟨"", "x", "Select"⟩] ∧
      ((getTableNames stmtInsertSelect NewQueryInfo 0 "NULL").columns =
          NewQueryInfo.columns ++ scopeEmitted stmtInsertSelect 0 [] "NULL" ∧
        typeOfPath ("Select" :: ["AliasedExpr", "Insert"]) "NULL" = "Select" ∧
        typeOfPath ("AliasedExpr" :: ["Insert"]) "NULL" = typeOfPath ["Insert"] "NULL") :=
  ⟨by decide,
    statement_type_nearest_root stmtInsertSelect NewQueryInfo 0 "NULL" "Select" "AliasedExpr"
      ["Insert"] (by decide) (by decide)⟩

/-! ## Claim C3: the qualifier fill of a walked scope -/

theorem mergeColumn_tables_nodup (aliasName : String) (qi : QueryInfo) (e : ColumnAccess)
    (h : qi.tables.Nodup) : (mergeColumn aliasName qi e).tables.Nodup := by
  have htab : (mergeColumn aliasName qi e).tables =
      if stringInSlice e.TableName qi.tables then qi.tables
      else qi.tables ++ [e.TableName] := by
    unfold mergeColumn
    split_ifs <;> rfl
  rw [htab]
  split_ifs with hin
  · exact h
  · have hnot : e.TableName ∉ qi.tables := fun hm => hin ((stringInSlice_iff _ _).2 hm)
    rw [List.nodup_append]
    refine ⟨h, List.nodup_singleton _, ?_⟩
    intro x hx hx'
    simp only [List.mem_singleton] at hx'
    exact hnot (hx' ▸ hx)

theorem traverseSubquery_tables_nodup (R : List ColumnAccess) (qi : QueryInfo)
    (aliasName : String) (h : qi.tables.Nodup) :
    (traverseSubquery R qi aliasName).tables.Nodup := by
  unfold traverseSubquery
  have key : ∀ (l : List ColumnAccess) (s : QueryInfo), s.tables.Nodup →
      (l.foldl (mergeColumn aliasName) s).tables.Nodup := by
    intro l
    induction l with
    | nil => intro s hs; exact hs
    | cons e l ih =>
      intro s hs
      rw [List.foldl_cons]
      exact ih _ (mergeColumn_tables_nodup aliasName s e hs)
  exact key R _ h

mutual
theorem getTableNames_tables_nodup (v : Node) (qi : QueryInfo) (level : Nat) (q : String)
    (h : (getTableNames v qi level q).aliasToTableMapping = []) :
    qi.aliasToTableMapping = [] ∧
      (qi.tables.Nodup → (getTableNames v qi level q).tables.Nodup) := by
  match v with
  | .struct typeName fields =>
    by_cases hsub : typeName = "Subquery" ∧ level ≠ 0
    · rw [getTableNames, if_pos hsub] at h ⊢
      rw [traverseSubquery_aliasToTable] at h
      exact ⟨h, traverseSubquery_tables_nodup _ _ _⟩
    · rw [getTableNames, if_neg hsub] at h ⊢
      exact getTableNamesList_tables_nodup fields qi (level + 1) _ h
  | .starExpr tableName =>
    simp only [getTableNames] at h ⊢
    exact ⟨h, fun hn => hn⟩
  | .tableName name qualifier => simp [getTableNames, mapStore] at h
  | .aliasedTable name aliasName =>
    simp only [getTableNames, mapStore] at h
    split_ifs at h
  | .aliasedSubquery sub aliasName =>
    rw [getTableNames_aliasedSubquery] at h ⊢
    rw [traverseSubquery_aliasToTable] at h
    exact ⟨h, traverseSubquery_tables_nodup _ _ _⟩
  | .aliasedNone =>
    simp only [getTableNames] at h ⊢
    exact ⟨h, fun hn => hn⟩
  | .colName qualifier name =>
    simp only [getTableNames] at h ⊢
    exact ⟨h, fun hn => hn⟩
  | .columns names =>
    simp only [getTableNames] at h ⊢
    exact ⟨h, fun hn => hn⟩
  | .slice elems =>
    simp only [getTableNames] at h ⊢
    exact getTableNamesList_tables_nodup elems qi (level + 1) q h
  | .iface value =>
    simp only [getTableNames] at h ⊢
    exact getTableNames_tables_nodup value qi (level + 1) q h
  | .other =>
    simp only [getTableNames] at h ⊢
    exact ⟨h, fun hn => hn⟩
theorem getTableNamesList_tables_nodup (vs : List Node) (qi : QueryInfo) (level : Nat)
    (q : String) (h : (getTableNamesList vs qi level q).aliasToTableMapping = []) :
    qi.aliasToTableMapping = [] ∧
      (qi.tables.Nodup → (getTableNamesList vs qi level q).tables.Nodup) := by
  match vs with
  | [] =>
    simp only [getTableNamesList] at h ⊢
    exact ⟨h, fun hn => hn⟩
  | v :: rest =>
    simp only [getTableNamesList] at h ⊢
    have h2 := getTableNamesList_tables_nodup rest (getTableNames v qi level q) level q h
    have h1 := getTableNames_tables_nodup v qi level q h2.1
    exact ⟨h1.1, fun hn => h2.2 (h1.2 hn)⟩
end

/-- C3: for every scope that a walk from a fresh scope produces, whose alias maps are
empty and whose table list is not the single entry `"dual"`, the result is
`sortAndUnique` of the columns after one loop round each, and the round gives each raw
column with an empty table the single table when the table list holds exactly one
distinct table name, and otherwise the comma-joined list of the distinct table names in
first-encounter order.  (A walk whose alias map stays empty has met no direct table
reference, and the merge of a subquery adds a table once.) -/
theorem qualifier_fill (v : Node) (level : Nat) (q : String)
    (hA : (getTableNames v NewQueryInfo level q).aliasToTableMapping = [])
    (hC : (getTableNames v NewQueryInfo level q).aliasColumnToColumnMapping = [])
    (hd : (getTableNames v NewQueryInfo level q).tables ≠ ["dual"]) :
    postResolution (getTableNames v NewQueryInfo level q) =
        sortAndUnique ((getTableNames v NewQueryInfo level q).columns.map
          (resolveColumn (getTableNames v NewQueryInfo level q))) ∧
      ∀ c ∈ (getTableNames v NewQueryInfo level q).columns, c.TableName = "" →
        resolveColumn (getTableNames v NewQueryInfo level q) c =
          ⟨specFillTable (getTableNames v NewQueryInfo level q).tables, c.ColumnName,
            c.QueryType⟩ := by
  have hnd : (getTableNames v NewQueryInfo level q).tables.Nodup :=
    (getTableNames_tables_nodup v NewQueryInfo level q hA).2 List.nodup_nil
  refine ⟨postResolution_of_not_dual hd, fun c _ hc => ?_⟩
  have hres : resolveColumn (getTableNames v NewQueryInfo level q) c =
      ⟨fillTable (getTableNames v NewQueryInfo level q).tables, c.ColumnName,
        c.QueryType⟩ := by
    simp [resolveColumn, hA, hC, hc, mapLookup]
  rw [hres]
  simp only [specFillTable, distinctNames_of_nodup hnd, fillTable]

theorem qualifier_fill_witness :
    parseReflect stmtSetSubquery = [⟨"b", "x", "NULL"⟩, ⟨"b", "y", "Select"⟩] ∧
      (getTableNames stmtSetSubquery NewQueryInfo 0 "NULL").columns =
        [⟨"", "x", "NULL"⟩, ⟨"b", "y", "Select"⟩] ∧
      specFillTable (getTableNames stmtSetSubquery NewQueryInfo 0 "NULL").tables = "b" ∧
      (postResolution (getTableNames stmtSetSubquery NewQueryInfo 0 "NULL") =
          sortAndUnique ((getTableNames stmtSetSubquery NewQueryInfo 0 "NULL").columns.map
            (resolveColumn (getTableNames stmtSetSubquery NewQueryInfo 0 "NULL"))) ∧
        ∀ c ∈ (getTableNames stmtSetSubquery NewQueryInfo 0 "NULL").columns,
          c.TableName = "" →
            resolveColumn (getTableNames stmtSetSubquery NewQueryInfo 0 "NULL") c =
              ⟨specFillTable (getTableNames stmtSetSubquery NewQueryInfo 0 "NULL").tables,
                c.ColumnName, c.QueryType⟩) :=
  ⟨by decide, by decide, by decide,
    qualifier_fill stmtSetSubquery 0 "NULL" (by decide) (by decide) (by decide)⟩

/-! ## What the alias maps hold when a walk has ended -/

theorem mapLookup_eq_some_of_forall {κ ν : Type} [DecidableEq κ] {k : κ} {v : ν} :
    ∀ {m : List (κ × ν)}, (∃ p ∈ m, p.1 = k) → (∀ p ∈ m, p.1 = k → p.2 = v) →
      mapLookup k m = some v := by
  intro m
  induction m with
  | nil => intro hex _; obtain ⟨p, hp, _⟩ := hex; simp at hp
  | cons p rest ih =>
    intro hex hall
    obtain ⟨k', v'⟩ := p
    simp only [mapLookup]
    split_ifs with hk
    · have := hall (k', v') (List.mem_cons_self _ _) hk
      simp only at this
      rw [this]
    · apply ih
      · obtain ⟨p, hp, hpk⟩ := hex
        rcases List.mem_cons.1 hp with rfl | hp
        · exact absurd hpk hk
        · exact ⟨p, hp, hpk⟩
      · exact fun p hp => hall p (List.mem_cons_of_mem _ hp)

theorem mapLookup_eq_none_of_forall {κ ν : Type} [DecidableEq κ] {k : κ} :
    ∀ {m : List (κ × ν)}, (∀ p ∈ m, p.1 ≠ k) → mapLookup k m = none := by
  intro m
  induction m with
  | nil => intro _; rfl
  | cons p rest ih =>
    intro hall
    obtain ⟨k', v'⟩ := p
    simp only [mapLookup]
    split_ifs with hk
    · exact absurd hk (hall (k', v') (List.mem_cons_self _ _))
    · exact ih (fun p hp => hall p (List.mem_cons_of_mem _ hp))

theorem mergeColumn_aliasColumn (aliasName : String) (qi : QueryInfo) (e : ColumnAccess) :
    (mergeColumn aliasName qi e).aliasColumnToColumnMapping =
      if aliasName ≠ "" then
        (⟨aliasName, e.ColumnName⟩, ⟨e.TableName, e.ColumnName⟩) ::
          qi.aliasColumnToColumnMapping
      else qi.aliasColumnToColumnMapping := by
  unfold mergeColumn
  split_ifs <;> rfl

theorem traverseSubquery_aliasColumn_mem (R : List ColumnAccess) (aliasName : String)
    (qi : QueryInfo) (p : Column × Column) :
    p ∈ (traverseSubquery R qi aliasName).aliasColumnToColumnMapping ↔
      p ∈ qi.aliasColumnToColumnMapping ∨
        (aliasName ≠ "" ∧
          ∃ e ∈ R, p = (⟨aliasName, e.ColumnName⟩, ⟨e.TableName, e.ColumnName⟩)) := by
  unfold traverseSubquery
  have key : ∀ (l : List ColumnAccess) (s : QueryInfo),
      p ∈ (l.foldl (mergeColumn aliasName) s).aliasColumnToColumnMapping ↔
        p ∈ s.aliasColumnToColumnMapping ∨
          (aliasName ≠ "" ∧
            ∃ e ∈ l, p = (⟨aliasName, e.ColumnName⟩, ⟨e.TableName, e.ColumnName⟩)) := by
    intro l
    induction l with
    | nil => intro s; simp
    | cons e l ih =>
      intro s
      rw [List.foldl_cons, ih, mergeColumn_aliasColumn]
      by_cases ha : aliasName = ""
      · simp [ha]
      · simp only [ne_eq, ha, not_false_eq_true, if_true, List.mem_cons, true_and,
          exists_eq_or_imp]
        constructor
        · rintro ((h | h) | h)
          · exact Or.inr (Or.inl h)
          · exact Or.inl h
          · exact Or.inr (Or.inr h)
        · rintro (h | h | h)
          · exact Or.inl (Or.inr h)
          · exact Or.inl (Or.inl h)
          · exact Or.inr h
  exact key R _

theorem Registers.same {qi qi' : QueryInfo}
    (h1 : qi'.aliasToTableMapping = qi.aliasToTableMapping)
    (h2 : qi'.aliasColumnToColumnMapping = qi.aliasColumnToColumnMapping) :
    Registers [] [] qi qi' :=
  ⟨fun p => by simp [h1], fun p => by simp [h2]⟩

theorem Registers.andThen {b1 b2 : List (String × String)}
    {s1 s2 : List (String × List ColumnAccess)} {qi qi1 qi2 : QueryInfo}
    (h1 : Registers b1 s1 qi qi1) (h2 : Registers b2 s2 qi1 qi2) :
    Registers (b1 ++ b2) (s1 ++ s2) qi qi2 := by
  refine ⟨fun p => ?_, fun p => ?_⟩
  · rw [h2.aliases, h1.aliases, List.mem_append, or_assoc]
  · rw [h2.aliasColumns, h1.aliasColumns]
    simp only [List.mem_append, or_and_right, exists_or, or_assoc]

theorem Registers.subquery (R : List ColumnAccess) (aliasName : String) (qi : QueryInfo) :
    Registers [] [(aliasName, R)] qi (traverseSubquery R qi aliasName) := by
  refine ⟨fun p => ?_, fun p => ?_⟩
  · rw [traverseSubquery_aliasToTable]
    simp
  · rw [traverseSubquery_aliasColumn_mem]
    simp

mutual
theorem getTableNames_registers (v : Node) (qi : QueryInfo) (level : Nat) (q : String) :
    Registers (scopeBindings v level) (scopeAliasedSubqueries v level) qi
      (getTableNames v qi level q) := by
  match v with
  | .struct typeName fields =>
    by_cases hsub : typeName = "Subquery" ∧ level ≠ 0
    · rw [getTableNames, if_pos hsub, scopeBindings, if_pos hsub, scopeAliasedSubqueries,
        if_pos hsub]
      refine ⟨fun p => ?_, fun p => ?_⟩
      · rw [traverseSubquery_aliasToTable]
        simp
      · rw [traverseSubquery_aliasColumn_mem]
        simp
    · rw [getTableNames, if_neg hsub, scopeBindings, if_neg hsub, scopeAliasedSubqueries,
        if_neg hsub]
      exact getTableNamesList_registers fields qi (level + 1) _
  | .starExpr tableName =>
    simp only [getTableNames, scopeBindings, scopeAliasedSubqueries]
    exact Registers.same rfl rfl
  | .tableName name qualifier =>
    simp only [getTableNames, scopeBindings, scopeAliasedSubqueries]
    refine ⟨fun p => ?_, fun p => by simp⟩
    simp only [mapStore, List.mem_cons, List.mem_singleton, List.not_mem_nil, or_false]
    exact or_comm
  | .aliasedTable name aliasName =>
    simp only [getTableNames, scopeBindings, scopeAliasedSubqueries]
    refine ⟨fun p => ?_, fun p => by simp⟩
    by_cases ha : aliasName = ""
    · simp only [ha, if_true, mapStore, List.mem_cons, List.not_mem_nil, or_false]
      constructor
      · rintro (h | h | h)
        · exact Or.inr (Or.inr h)
        · exact Or.inr (Or.inl h)
        · exact Or.inl h
      · rintro (h | h | h)
        · exact Or.inr (Or.inr h)
        · exact Or.inr (Or.inl h)
        · exact Or.inl h
    · simp only [ha, if_false, mapStore, List.mem_cons, List.mem_singleton, List.not_mem_nil,
        or_false]
      exact or_comm
  | .aliasedSubquery sub aliasName =>
    rw [getTableNames_aliasedSubquery]
    simp only [scopeBindings, scopeAliasedSubqueries]
    exact Registers.subquery _ _ _
  | .aliasedNone =>
    simp only [getTableNames, scopeBindings, scopeAliasedSubqueries]
    exact Registers.same rfl rfl
  | .colName qualifier name =>
    simp only [getTableNames, scopeBindings, scopeAliasedSubqueries]
    exact Registers.same rfl rfl
  | .columns names =>
    simp only [getTableNames, scopeBindings, scopeAliasedSubqueries]
    exact Registers.same rfl rfl
  | .slice elems =>
    simp only [getTableNames, scopeBindings, scopeAliasedSubqueries]
    exact getTableNamesList_registers elems qi (level + 1) q
  | .iface value =>
    simp only [getTableNames, scopeBindings, scopeAliasedSubqueries]
    exact getTableNames_registers value qi (level + 1) q
  | .other =>
    simp only [getTableNames, scopeBindings, scopeAliasedSubqueries]
    exact Registers.same rfl rfl
theorem getTableNamesList_registers (vs : List Node) (qi : QueryInfo) (level : Nat)
    (q : String) :
    Registers (scopeBindingsList vs level) (scopeAliasedSubqueriesList vs level) qi
      (getTableNamesList vs qi level q) := by
  match vs with
  | [] =>
    simp only [getTableNamesList, scopeBindingsList, scopeAliasedSubqueriesList]
    exact Registers.same rfl rfl
  | v :: rest =>
    simp only [getTableNamesList, scopeBindingsList, scopeAliasedSubqueriesList]
    exact (getTableNames_registers v qi level q).andThen
      (getTableNamesList_registers rest _ level q)
end

/-! ## Names without the separator stay without it -/

theorem intercalate_go_colonFree (l : List String) :
    ∀ acc : String, ':' ∉ acc.data → (∀ s ∈ l, ':' ∉ s.data) →
      ':' ∉ (String.intercalate.go acc "," l).data := by
  induction l with
  | nil => intro acc h _; simpa [String.intercalate.go] using h
  | cons a rest ih =>
    intro acc h hl
    simp only [String.intercalate.go]
    apply ih
    · have ha := hl a (List.mem_cons_self _ _)
      simp only [String.data_append, List.mem_append, not_or]
      exact ⟨⟨h, by decide⟩, ha⟩
    · exact fun s hs => hl s (List.mem_cons_of_mem _ hs)

theorem fillTable_colonFree {tables : List String} (h : ∀ t ∈ tables, ':' ∉ t.data) :
    ':' ∉ (fillTable tables).data := by
  match tables, h with
  | [], _ => simp [fillTable, String.intercalate]
  | [t], h => exact h t (List.mem_cons_self _ _)
  | a :: b :: rest, h =>
    have hf : fillTable (a :: b :: rest) = String.intercalate.go a "," (b :: rest) := rfl
    rw [hf]
    exact intercalate_go_colonFree _ a (h a (List.mem_cons_self _ _))
      (fun s hs => h s (List.mem_cons_of_mem _ hs))

theorem resolveColumn_colonFree {qi : QueryInfo} (hqi : ColonFreeScope qi) {c : ColumnAccess}
    (hc : colonFree c) : colonFree (resolveColumn qi c) := by
  refine ⟨?_, hc.2⟩
  have ht1 : ':' ∉ (if c.TableName = "" then fillTable qi.tables else c.TableName).data := by
    split_ifs
    · exact fillTable_colonFree hqi.tables
    · exact hc.1
  simp only [resolveColumn]
  generalize (if c.TableName = "" then fillTable qi.tables else c.TableName) = t1 at ht1
  have ht2 : ':' ∉ (match mapLookup ({ table := t1, column := c.ColumnName } : Column)
      qi.aliasColumnToColumnMapping with
    | some value => value.table
    | none => t1).data := by
    cases hl : mapLookup ({ table := t1, column := c.ColumnName } : Column)
      qi.aliasColumnToColumnMapping with
    | none => exact ht1
    | some value => exact hqi.aliasColumns _ (mem_of_mapLookup hl)
  generalize (match mapLookup ({ table := t1, column := c.ColumnName } : Column)
      qi.aliasColumnToColumnMapping with
    | some value => value.table
    | none => t1) = t2 at ht2
  cases hl : mapLookup t2 qi.aliasToTableMapping with
  | none => exact ht2
  | some value => exact hqi.aliases _ (mem_of_mapLookup hl)

theorem postResolution_colonFree {qi : QueryInfo} (hqi : ColonFreeScope qi) :
    ∀ c ∈ postResolution qi, colonFree c := by
  intro c hc
  obtain ⟨e, he, rfl⟩ := postResolution_subset hc
  exact resolveColumn_colonFree hqi (hqi.columns e he)

theorem ColonFreeScope.new : ColonFreeScope NewQueryInfo :=
  ⟨by simp [NewQueryInfo], by simp [NewQueryInfo], by simp [NewQueryInfo],
    by simp [NewQueryInfo]⟩

theorem mergeColumn_colonFree (aliasName : String) {qi : QueryInfo} (hqi : ColonFreeScope qi)
    {e : ColumnAccess} (he : colonFree e) : ColonFreeScope (mergeColumn aliasName qi e) := by
  have htab : ∀ t ∈ (mergeColumn aliasName qi e).tables, ':' ∉ t.data := by
    intro t ht
    have hsub : t ∈ qi.tables ∨ t = e.TableName := by
      unfold mergeColumn at ht
      split_ifs at ht <;> first | exact Or.inl ht | simpa using ht
    rcases hsub with h | h
    · exact hqi.tables t h
    · rw [h]; exact he.1
  have hal : (mergeColumn aliasName qi e).aliasToTableMapping = qi.aliasToTableMapping := by
    unfold mergeColumn
    split_ifs <;> rfl
  have hcol : (mergeColumn aliasName qi e).columns = qi.columns := by
    unfold mergeColumn
    split_ifs <;> rfl
  refine ⟨htab, by rw [hal]; exact hqi.aliases, ?_, by rw [hcol]; exact hqi.columns⟩
  rw [mergeColumn_aliasColumn]
  split_ifs
  · intro p hp
    rcases List.mem_cons.1 hp with rfl | hp
    · exact he.1
    · exact hqi.aliasColumns p hp
  · exact hqi.aliasColumns

theorem traverseSubquery_colonFree (R : List ColumnAccess) (aliasName : String)
    {qi : QueryInfo} (hqi : ColonFreeScope qi) (hR : ∀ e ∈ R, colonFree e) :
    ColonFreeScope (traverseSubquery R qi aliasName) := by
  unfold traverseSubquery
  have key : ∀ (l : List ColumnAccess) (s : QueryInfo), ColonFreeScope s →
      (∀ e ∈ l, colonFree e) → ColonFreeScope (l.foldl (mergeColumn aliasName) s) := by
    intro l
    induction l with
    | nil => intro s hs _; exact hs
    | cons e l ih =>
      intro s hs hl
      rw [List.foldl_cons]
      exact ih _ (mergeColumn_colonFree aliasName hs (hl e (List.mem_cons_self _ _)))
        (fun x hx => hl x (List.mem_cons_of_mem _ hx))
  refine key R _ ⟨hqi.tables, hqi.aliases, hqi.aliasColumns, ?_⟩ hR
  intro c hc
  rcases List.mem_append.1 hc with h | h
  · exact hqi.columns c h
  · exact hR c h

mutual
theorem getTableNames_colonFree (v : Node) (qi : QueryInfo) (level : Nat) (q : String)
    (hqi : ColonFreeScope qi) (hv : colonFreeNames v = true) :
    ColonFreeScope (getTableNames v qi level q) := by
  match v with
  | .struct typeName fields =>
    simp only [colonFreeNames] at hv
    by_cases hsub : typeName = "Subquery" ∧ level ≠ 0
    · rw [getTableNames, if_pos hsub]
      exact traverseSubquery_colonFree _ _ hqi
        (postResolution_colonFree
          (getTableNamesList_colonFree fields NewQueryInfo _ _ ColonFreeScope.new hv))
    · rw [getTableNames, if_neg hsub]
      exact getTableNamesList_colonFree fields qi _ _ hqi hv
  | .starExpr tableName =>
    simp only [colonFreeNames, decide_eq_true_eq] at hv
    simp only [getTableNames]
    refine ⟨hqi.tables, hqi.aliases, hqi.aliasColumns, ?_⟩
    intro c hc
    rcases List.mem_append.1 hc with h | h
    · exact hqi.columns c h
    · simp only [List.mem_singleton] at h
      rw [h]
      exact ⟨hv, by simp⟩
  | .tableName name qualifier =>
    simp only [colonFreeNames, decide_eq_true_eq] at hv
    simp only [getTableNames, mapStore]
    refine ⟨?_, ?_, hqi.aliasColumns, hqi.columns⟩
    · intro t ht
      rcases List.mem_append.1 ht with h | h
      · exact hqi.tables t h
      · simp only [List.mem_singleton] at h
        rw [h]; exact hv
    · intro p hp
      rcases List.mem_cons.1 hp with rfl | hp
      · exact hv
      · exact hqi.aliases p hp
  | .aliasedTable name aliasName =>
    simp only [colonFreeNames, decide_eq_true_eq] at hv
    simp only [getTableNames, mapStore]
    refine ⟨?_, ?_, hqi.aliasColumns, hqi.columns⟩
    · intro t ht
      rcases List.mem_append.1 ht with h | h
      · exact hqi.tables t h
      · simp only [List.mem_singleton] at h
        rw [h]; exact hv
    · intro p hp
      split_ifs at hp
      · rcases List.mem_cons.1 hp with rfl | hp
        · exact hv
        · rcases List.mem_cons.1 hp with rfl | hp
          · exact hv
          · exact hqi.aliases p hp
      · rcases List.mem_cons.1 hp with rfl | hp
        · exact hv
        · exact hqi.aliases p hp
  | .aliasedSubquery sub aliasName =>
    simp only [colonFreeNames] at hv
    rw [getTableNames]
    exact traverseSubquery_colonFree _ _ hqi
      (postResolution_colonFree
        (getTableNames_colonFree sub NewQueryInfo 0 "NULL" ColonFreeScope.new hv))
  | .aliasedNone => simpa only [getTableNames] using hqi
  | .colName qualifier name =>
    simp only [colonFreeNames, Bool.and_eq_true, decide_eq_true_eq] at hv
    simp only [getTableNames]
    refine ⟨hqi.tables, hqi.aliases, hqi.aliasColumns, ?_⟩
    intro c hc
    rcases List.mem_append.1 hc with h | h
    · exact hqi.columns c h
    · simp only [List.mem_singleton] at h
      rw [h]
      exact hv
  | .columns names =>
    simp only [colonFreeNames, decide_eq_true_eq] at hv
    simp only [getTableNames, appendColumns_eq]
    refine ⟨hqi.tables, hqi.aliases, hqi.aliasColumns, ?_⟩
    intro c hc
    rcases List.mem_append.1 hc with h | h
    · exact hqi.columns c h
    · obtain ⟨n, hn, rfl⟩ := List.mem_map.1 h
      exact ⟨by simp, hv n (List.mem_of_mem_filter hn)⟩
  | .slice elems =>
    simp only [colonFreeNames] at hv
    simp only [getTableNames]
    exact getTableNamesList_colonFree elems qi _ _ hqi hv
  | .iface value =>
    simp only [colonFreeNames] at hv
    simp only [getTableNames]
    exact getTableNames_colonFree value qi _ _ hqi hv
  | .other => simpa only [getTableNames] using hqi
theorem getTableNamesList_colonFree (vs : List Node) (qi : QueryInfo) (level : Nat)
    (q : String) (hqi : ColonFreeScope qi) (hv : colonFreeNamesList vs = true) :
    ColonFreeScope (getTableNamesList vs qi level q) := by
  match vs with
  | [] => simpa only [getTableNamesList] using hqi
  | v :: rest =>
    simp only [colonFreeNamesList, Bool.and_eq_true] at hv
    simp only [getTableNamesList]
    exact getTableNamesList_colonFree rest _ level q
      (getTableNames_colonFree v qi level q hqi hv.1) hv.2
end

theorem mem_parseReflect_of_colonFree (v : Node) (hv : colonFreeNames v = true)
    (hd : (getTableNames v NewQueryInfo 0 "NULL").tables ≠ ["dual"]) {c : ColumnAccess}
    (hc : c ∈ (getTableNames v NewQueryInfo 0 "NULL").columns) :
    resolveColumn (getTableNames v NewQueryInfo 0 "NULL") c ∈ parseReflect v := by
  have hqi := getTableNames_colonFree v NewQueryInfo 0 "NULL" ColonFreeScope.new hv
  exact mem_postResolution hd
    (fun e he => resolveColumn_colonFree hqi (hqi.columns e he)) hc

/-! ## Claims C5 and C6: resolution through the alias maps -/

/-- C5, as stated, fails: in `select a.x from dual as a` the table `dual` was walked with
the alias `a` and no subquery registered `(a, x)`, yet the result is empty, the table
list being the single entry `"dual"`; in `select a.x from t as a, u as a` the table `t`
was walked with the alias `a`, yet a later reference bound `a` to `u` and `a.x` is
reported with `u`. -/
theorem explicit_alias_not_reported :
    scopeBindings stmtDualAlias 0 = [("a", "dual")] ∧
      parseReflect stmtDualAlias = [] ∧
      scopeBindings stmtAliasTwice 0 = [("a", "t"), ("a", "u")] ∧
      parseReflect stmtAliasTwice = [⟨"u", "x", "Select"⟩] := by
  decide

/-- C5, amended: for every statement tree in whose scope a table reference binds the
non-empty alias `a` to the table `t` (as a direct reference `t as a` does) and no
reference binds `a` to another table, in which no aliased subquery registers the pair
`(a, x)`, and whose table list after the walk is not the single entry `"dual"`, a column
reference `a.x` of the scope is resolved to `(t, x, statementType)`, and this triple is
in the result of `parseReflect`.  The names of the tree are values of `CompliantName()`,
which is what `colonFreeNames` states of them. -/
theorem explicit_alias (v : Node) (t a x q : String) (ha : a ≠ "")
    (href : (a, t) ∈ scopeBindings v 0)
    (honly : ∀ p ∈ scopeBindings v 0, p.1 = a → p.2 = t)
    (hsub : ∀ m ∈ scopeAliasedSubqueries v 0, m.1 = a → ∀ e ∈ m.2, e.ColumnName ≠ x)
    (hd : (getTableNames v NewQueryInfo 0 "NULL").tables ≠ ["dual"])
    (hmem : (⟨a, x, q⟩ : ColumnAccess) ∈ scopeEmitted v 0 [] "NULL")
    (hnames : colonFreeNames v = true) :
    mapLookup a (getTableNames v NewQueryInfo 0 "NULL").aliasToTableMapping = some t ∧
      resolveColumn (getTableNames v NewQueryInfo 0 "NULL") ⟨a, x, q⟩ = ⟨t, x, q⟩ ∧
      (⟨t, x, q⟩ : ColumnAccess) ∈ parseReflect v := by
  have hreg := getTableNames_registers v NewQueryInfo 0 "NULL"
  have hmap : mapLookup a (getTableNames v NewQueryInfo 0 "NULL").aliasToTableMapping =
      some t := by
    apply mapLookup_eq_some_of_forall
    · exact ⟨(a, t), (hreg.aliases _).2 (Or.inr href), rfl⟩
    · intro p hp hpa
      rcases (hreg.aliases p).1 hp with h | h
      · simp [NewQueryInfo] at h
      · exact honly p h hpa
  have hcol : mapLookup (⟨a, x⟩ : Column)
      (getTableNames v NewQueryInfo 0 "NULL").aliasColumnToColumnMapping = none := by
    apply mapLookup_eq_none_of_forall
    intro p hp hpk
    rcases (hreg.aliasColumns p).1 hp with h | ⟨m, hm, _, e, he, rfl⟩
    · simp [NewQueryInfo] at h
    · simp only [Column.mk.injEq] at hpk
      exact hsub m hm hpk.1 e he hpk.2
  have hres : resolveColumn (getTableNames v NewQueryInfo 0 "NULL") ⟨a, x, q⟩ =
      ⟨t, x, q⟩ := by
    simp [resolveColumn, ha, hcol, hmap]
  have hcols : (⟨a, x, q⟩ : ColumnAccess) ∈
      (getTableNames v NewQueryInfo 0 "NULL").columns := by
    have := getTableNames_emitted v NewQueryInfo 0 [] "NULL"
    simp only [typeOfPath] at this
    rw [this]
    exact List.mem_append_right _ hmem
  refine ⟨hmap, hres, ?_⟩
  rw [← hres]
  exact mem_parseReflect_of_colonFree v hnames hd hcols

theorem explicit_alias_witness :
    parseReflect stmtExplicitAlias = [⟨"t", "x", "Select"⟩] ∧
      scopeBindings stmtExplicitAlias 0 = [("a", "t")] ∧
      scopeEmitted stmtExplicitAlias 0 [] "NULL" = [⟨"a", "x", "Select"⟩] ∧
      (mapLookup "a"
          (getTableNames stmtExplicitAlias NewQueryInfo 0 "NULL").aliasToTableMapping =
            some "t" ∧
        resolveColumn (getTableNames stmtExplicitAlias NewQueryInfo 0 "NULL")
          ⟨"a", "x", "Select"⟩ = ⟨"t", "x", "Select"⟩ ∧
        (⟨"t", "x", "Select"⟩ : ColumnAccess) ∈ parseReflect stmtExplicitAlias) :=
  ⟨by decide, by decide, by decide,
    explicit_alias stmtExplicitAlias "t" "a" "x" "Select" (by decide) (by decide) (by decide)
      (by decide) (by decide) (by decide) (by decide)⟩

/-- C6, as stated, fails: in `select s.y from (select b.y from b) as s, u as b` the
subquery aliased `s` was merged and its result has the column `y` with the single source
table `b`, but the parent scope binds the alias `b` to `u`, and `s.y` is reported with
the table `u`; in `select s.y from (select dual.y from dual, dual) as s` the parent's
table list is the single entry `"dual"` and the result is empty; and in
`update t, (select b.y from b) as s, (select d.y from d) as s set t.a = s.y` a second
subquery under the same alias registers `(s, y)` again and `s.y` is reported with `d`. -/
theorem aliased_subquery_shadowed :
    parseReflect (subqueryNode stmtInner) = [⟨"b", "y", "Select"⟩] ∧
      parseReflect stmtSubqueryShadowed = [⟨"u", "y", "Select"⟩] ∧
      parseReflect (subqueryNode stmtInnerDual) = [⟨"dual", "y", "Select"⟩] ∧
      parseReflect stmtSubqueryDual = [] ∧
      parseReflect stmtAliasedSubqueryTwice =
        [⟨"b", "y", "Select"⟩, ⟨"d", "y", "Select"⟩, ⟨"d", "y", "Update"⟩,
          ⟨"t", "a", "Update"⟩] := by
  decide

/-- C6, amended: for every statement tree whose scope merges a subquery under a non-empty
external alias `s`, the subquery's result having the column `c`, where every subquery
merged under `s` has `c` only with the source table `b`, and whose table list after the
walk is not the single entry `"dual"`: an outer reference `s.c` whose qualifier is the
alias as it was stored is looked up to `(b, c)`, is resolved to the table `b`, or to the
table that the parent's `aliasToTableMapping` binds to `b` when `b` is a key of it, and
that triple is in the result of `parseReflect`.  The alias is the stored `As.String()`;
the names of the tree are values of `CompliantName()`, which is what `colonFreeNames`
states of them. -/
theorem aliased_subquery_passthrough (v : Node) (R : List ColumnAccess) (s c b q : String)
    (hs : s ≠ "") (hsub : (s, R) ∈ scopeAliasedSubqueries v 0)
    (hR : ∃ e ∈ R, e.ColumnName = c)
    (hb : ∀ m ∈ scopeAliasedSubqueries v 0, m.1 = s →
      ∀ e ∈ m.2, e.ColumnName = c → e.TableName = b)
    (hd : (getTableNames v NewQueryInfo 0 "NULL").tables ≠ ["dual"])
    (hmem : (⟨s, c, q⟩ : ColumnAccess) ∈ scopeEmitted v 0 [] "NULL")
    (hnames : colonFreeNames v = true) :
    mapLookup (⟨s, c⟩ : Column)
        (getTableNames v NewQueryInfo 0 "NULL").aliasColumnToColumnMapping = some ⟨b, c⟩ ∧
      resolveColumn (getTableNames v NewQueryInfo 0 "NULL") ⟨s, c, q⟩ =
        ⟨(mapLookup b (getTableNames v NewQueryInfo 0 "NULL").aliasToTableMapping).getD b,
          c, q⟩ ∧
      (⟨(mapLookup b (getTableNames v NewQueryInfo 0 "NULL").aliasToTableMapping).getD b,
        c, q⟩ : ColumnAccess) ∈ parseReflect v := by
  have hreg := getTableNames_registers v NewQueryInfo 0 "NULL"
  have hcol : mapLookup (⟨s, c⟩ : Column)
      (getTableNames v NewQueryInfo 0 "NULL").aliasColumnToColumnMapping =
        some ⟨b, c⟩ := by
    apply mapLookup_eq_some_of_forall
    · obtain ⟨e, he, hec⟩ := hR
      refine ⟨(⟨s, e.ColumnName⟩, ⟨e.TableName, e.ColumnName⟩), ?_, by simp [hec]⟩
      exact (hreg.aliasColumns _).2 (Or.inr ⟨(s, R), hsub, hs, e, he, rfl⟩)
    · intro p hp hpk
      rcases (hreg.aliasColumns p).1 hp with h | ⟨m, hm, _, e, he, rfl⟩
      · simp [NewQueryInfo] at h
      · simp only [Column.mk.injEq] at hpk
        simp only [Column.mk.injEq]
        exact ⟨hb m hm hpk.1 e he hpk.2, hpk.2⟩
  have hres : resolveColumn (getTableNames v NewQueryInfo 0 "NULL") ⟨s, c, q⟩ =
      ⟨(mapLookup b (getTableNames v NewQueryInfo 0 "NULL").aliasToTableMapping).getD b,
        c, q⟩ := by
    simp only [resolveColumn, hs, if_false, hcol]
    cases mapLookup b (getTableNames v NewQueryInfo 0 "NULL").aliasToTableMapping <;> rfl
  have hcols : (⟨s, c, q⟩ : ColumnAccess) ∈
      (getTableNames v NewQueryInfo 0 "NULL").columns := by
    have := getTableNames_emitted v NewQueryInfo 0 [] "NULL"
    simp only [typeOfPath] at this
    rw [this]
    exact List.mem_append_right _ hmem
  refine ⟨hcol, hres, ?_⟩
  rw [← hres]
  exact mem_parseReflect_of_colonFree v hnames hd hcols

theorem aliased_subquery_passthrough_witness :
    parseReflect stmtAliasedSubquery = [⟨"b", "y", "Select"⟩] ∧
      scopeAliasedSubqueries stmtAliasedSubquery 0 = [("s", [⟨"b", "y", "Select"⟩])] ∧
      (mapLookup (⟨"s", "y"⟩ : Column)
          (getTableNames stmtAliasedSubquery NewQueryInfo 0
            "NULL").aliasColumnToColumnMapping = some ⟨"b", "y"⟩ ∧
        resolveColumn (getTableNames stmtAliasedSubquery NewQueryInfo 0 "NULL")
            ⟨"s", "y", "Select"⟩ =
          ⟨(mapLookup "b"
            (getTableNames stmtAliasedSubquery NewQueryInfo 0 "NULL").aliasToTableMapping).getD
            "b", "y", "Select"⟩ ∧
        (⟨(mapLookup "b"
            (getTableNames stmtAliasedSubquery NewQueryInfo 0 "NULL").aliasToTableMapping).getD
            "b", "y", "Select"⟩ : ColumnAccess) ∈ parseReflect stmtAliasedSubquery) :=
  ⟨by decide, by decide,
    aliased_subquery_passthrough stmtAliasedSubquery [⟨"b", "y", "Select"⟩] "s" "y" "b"
      "Select" (by decide) (by decide) (by decide) (by decide) (by decide) (by decide)
      (by decide)⟩

/-- Outside the amended C6: the alias of a subquery is stored as `As.String()` while the
qualifier of a column is read with `CompliantName()`.  For an alias that
`CompliantName()` rewrites the two differ, the lookup of the outer reference misses, and
the reference is reported with its qualifier instead of the source table. -/
theorem aliased_subquery_raw_alias :
    (getTableNames stmtRawAlias NewQueryInfo 0 "NULL").aliasColumnToColumnMapping =
        [(⟨"s-1", "y"⟩, ⟨"b_1", "y"⟩)] ∧
      resolveColumn (getTableNames stmtRawAlias NewQueryInfo 0 "NULL") ⟨"s_1", "y", "Select"⟩ =
        ⟨"s_1", "y", "Select"⟩ ∧
      parseReflect stmtRawAlias = [⟨"b_1", "y", "Select"⟩, ⟨"s_1", "y", "Select"⟩] := by
  decide

end Squel
